import Mathlib

/-!
# Verification of the needle-indexing chunker and storage layer

A shallow embedding of `Indexing/needle_indexing.py`, `Config/config.py` and
the orchestrator in `main.py`.  Text is modelled as `List Char` (Python `str`),
and each Python string operation used by the code (`strip`, `split`,
`replace`, `find`, `rfind`, slicing) is embedded as an executable function on
character lists.  The chunking algorithm of `create_needle_chunks`, the
upsert-based storage of `store_in_supabase` / `store_via_postgres`, the
orchestrator dispatch of `ClaimQueryOrchestrator.query` and the
metadata-gated loading of `load_pdf_with_metadata` are embedded and their
announced properties settled.
-/

set_option autoImplicit false
set_option maxRecDepth 40000

/-- Python `str` as a list of characters. -/
abbrev Str := List Char

/-! ## Configuration constants (`Config/config.py`, lines 32-34) -/

/-- `CHUNK_SIZE = 300` from `Config/config.py`. -/
def CHUNK_SIZE : Nat := 300

/-- `CHUNK_OVERLAP = 40` from `Config/config.py`. -/
def CHUNK_OVERLAP : Nat := 40

/-! ## Python string primitives -/

/-- Python `s.strip()`: drop leading and trailing whitespace. -/
def pyStrip (s : Str) : Str :=
  ((s.dropWhile fun c => c.isWhitespace).reverse.dropWhile fun c => c.isWhitespace).reverse

/-- Python `s.find(c)` for a single character: index of the first occurrence. -/
def findChar (c : Char) : Str → Option Nat
  | [] => none
  | x :: rest => if x = c then some 0 else (findChar c rest).map fun n => n + 1

/-- Python `s.rfind('. ')`: index of the last occurrence of the two-character
sentence boundary `". "`. -/
def rfindDotSpace : Str → Option Nat
  | [] => none
  | x :: rest =>
    match rfindDotSpace rest with
    | some i => some (i + 1)
    | none => if x = '.' ∧ rest.head? = some ' ' then some 0 else none

/-- Lines 123-125 of `needle_indexing.py`: `first_space = overlap_text.find(' ')`,
and if found, `overlap_text = overlap_text[first_space+1:]`. -/
def afterFirstSpace (s : Str) : Str :=
  match findChar ' ' s with
  | some i => s.drop (i + 1)
  | none => s

/-- Lines 128-130 of `needle_indexing.py`: `last_period = overlap_text.rfind('. ')`,
and if found, `overlap_text = overlap_text[last_period+2:]`. -/
def afterLastSentenceEnd (s : Str) : Str :=
  match rfindDotSpace s with
  | some i => s.drop (i + 2)
  | none => s

/-- Lines 120-130 of `needle_indexing.py`: take the trailing `CHUNK_OVERLAP`
characters of the closed buffer (`current_chunk[-config.CHUNK_OVERLAP:]`) and
correct the boundary: advance past the first space, then drop everything up
to and including the last `". "`. -/
def correctOverlap (buf : Str) : Str :=
  afterLastSentenceEnd (afterFirstSpace (buf.drop (buf.length - CHUNK_OVERLAP)))

/-- Python `para.replace('. ', '.|')` (line 97): left-to-right,
non-overlapping replacement. -/
def replaceDotSpace : Str → Str
  | [] => []
  | [x] => [x]
  | x :: y :: rest =>
    if x = '.' ∧ y = ' ' then '.' :: '|' :: replaceDotSpace rest
    else x :: replaceDotSpace (y :: rest)

/-- Python `s.split('|')` (line 97). -/
def splitPipe : Str → List Str
  | [] => [[]]
  | x :: rest =>
    if x = '|' then [] :: splitPipe rest
    else
      match splitPipe rest with
      | [] => [[x]]
      | p :: ps => (x :: p) :: ps

/-- Python `text.split('\n\n')` (line 75): split on paragraph breaks. -/
def splitParas : Str → List Str
  | [] => [[]]
  | [x] => [[x]]
  | x :: y :: rest =>
    if x = '\n' ∧ y = '\n' then [] :: splitParas rest
    else
      match splitParas (y :: rest) with
      | [] => [[x]]
      | p :: ps => (x :: p) :: ps

/-- Line 97 of `needle_indexing.py`:
`sentences = para.replace('. ', '.|').split('|')`. -/
def sentencesOf (para : Str) : List Str :=
  splitPipe (replaceDotSpace para)

/-! ## The sentence-accumulation loop (lines 99-148), text level

`chunkPara sents buf` is the loop `for sent in sentences` with running buffer
`current_chunk = buf`, returning the emitted chunk texts in order; the final
non-empty stripped buffer is emitted after the loop (lines 139-148). -/

/-- The chunk texts emitted by the sentence loop of `create_needle_chunks`
(lines 99-148 of `needle_indexing.py`) started with buffer `buf`. -/
def chunkPara : List Str → Str → List Str
  | [], buf => if pyStrip buf = [] then [] else [pyStrip buf]
  | s :: rest, buf =>
    if pyStrip s = [] then chunkPara rest buf
    else if buf ≠ [] ∧ CHUNK_SIZE < buf.length + (pyStrip s).length + 1 then
      pyStrip buf ::
        chunkPara rest
          (if CHUNK_OVERLAP < buf.length then correctOverlap buf ++ ' ' :: pyStrip s
           else pyStrip s)
    else chunkPara rest (if buf = [] then pyStrip s else buf ++ ' ' :: pyStrip s)

/-- The chunk texts produced for one oversized paragraph:
`chunkPara` started on the paragraph's sentences with an empty buffer. -/
def paraChunks (para : Str) : List Str :=
  chunkPara (sentencesOf para) []

/-- `chunkPara`, instrumented to record with each emitted chunk the overlap
seed its buffer was started from (`[]` when the buffer was not seeded).
The first components reproduce `chunkPara` exactly
(theorem `chunkParaAnnot_fst`). -/
def chunkParaAnnot : List Str → Str → Str → List (Str × Str)
  | [], buf, ovl => if pyStrip buf = [] then [] else [(pyStrip buf, ovl)]
  | s :: rest, buf, ovl =>
    if pyStrip s = [] then chunkParaAnnot rest buf ovl
    else if buf ≠ [] ∧ CHUNK_SIZE < buf.length + (pyStrip s).length + 1 then
      (pyStrip buf, ovl) ::
        (if CHUNK_OVERLAP < buf.length then
          chunkParaAnnot rest (correctOverlap buf ++ ' ' :: pyStrip s) (correctOverlap buf)
        else chunkParaAnnot rest (pyStrip s) [])
    else chunkParaAnnot rest (if buf = [] then pyStrip s else buf ++ ' ' :: pyStrip s) ovl

/-! ## Page-level chunking with chunk records (lines 73-159) -/

/-- The page metadata copied onto every chunk
(`node.metadata.update(parent_doc.metadata)`, lines 87 / 110 / 142). -/
structure PageMeta where
  pageNumber : Nat
  header : Str
  involvedParties : Str
  date : Str
  docType : Str
  pageId : Str
deriving DecidableEq

/-- A parent page (`Document` with enriched metadata and `doc.id_`). -/
structure Page where
  id : Str
  meta : PageMeta
  text : Str
deriving DecidableEq

/-- Decimal rendering of a natural number, for `f"..._chunk_{len(chunks)}"`. -/
def natStr (n : Nat) : Str := (Nat.repr n).data

/-- A child chunk (`TextNode` with the metadata set in lines 86-92,
108-115 and 140-147 of `needle_indexing.py`). -/
structure Chunk where
  text : Str
  chunkIndex : Nat
  parentId : Str
  chunkId : Str
  chunkSize : Nat
  meta : PageMeta
deriving DecidableEq

/-- Chunk construction (lines 85-92 / 108-115 / 140-147): the new node's
`chunk_index` is `len(chunks)` for the accumulated list `chunks = acc`, its
id is `f"{parent_doc.id_}_chunk_{len(chunks)}"`, and `chunk_size` is the
length of its text. -/
def mkChunk (pg : Page) (acc : List Chunk) (t : Str) : Chunk :=
  { text := t
    chunkIndex := acc.length
    parentId := pg.id
    chunkId := pg.id ++ "_chunk_".data ++ natStr acc.length
    chunkSize := t.length
    meta := pg.meta }

/-- The sentence loop (lines 99-148) at the chunk-record level, accumulating
onto the page's chunk list `acc`. -/
def chunkParaRec (pg : Page) : List Str → Str → List Chunk → List Chunk
  | [], buf, acc => if pyStrip buf = [] then acc else acc ++ [mkChunk pg acc (pyStrip buf)]
  | s :: rest, buf, acc =>
    if pyStrip s = [] then chunkParaRec pg rest buf acc
    else if buf ≠ [] ∧ CHUNK_SIZE < buf.length + (pyStrip s).length + 1 then
      chunkParaRec pg rest
        (if CHUNK_OVERLAP < buf.length then correctOverlap buf ++ ' ' :: pyStrip s
         else pyStrip s)
        (acc ++ [mkChunk pg acc (pyStrip buf)])
    else chunkParaRec pg rest (if buf = [] then pyStrip s else buf ++ ' ' :: pyStrip s) acc

/-- Lines 78-148: process one raw paragraph of the page. The paragraph is
stripped; an empty one is skipped; one of length at most `CHUNK_SIZE` is
emitted as a single chunk; otherwise the sentence loop runs. -/
def processPara (pg : Page) (acc : List Chunk) (rawPara : Str) : List Chunk :=
  if pyStrip rawPara = [] then acc
  else if (pyStrip rawPara).length ≤ CHUNK_SIZE then acc ++ [mkChunk pg acc (pyStrip rawPara)]
  else chunkParaRec pg (sentencesOf (pyStrip rawPara)) [] acc

/-- Lines 73-150 of `needle_indexing.py` for one page: split the page text on
`"\n\n"` and process each paragraph, accumulating the page's chunk list. -/
def createNeedleChunksPage (pg : Page) : List Chunk :=
  (splitParas pg.text).foldl (processPara pg) []

/-- `create_needle_chunks(documents)` (lines 57-159): the parent nodes are
the documents themselves, the child nodes the concatenation of every page's
chunks in page order. -/
def createNeedleChunks (docs : List Page) : List Page × List Chunk :=
  (docs, docs.foldl (fun cn d => cn ++ createNeedleChunksPage d) [])

/-- The chunk texts contributed by one raw paragraph
(the text projection of `processPara`). -/
def paraTexts (rawPara : Str) : List Str :=
  if pyStrip rawPara = [] then []
  else if (pyStrip rawPara).length ≤ CHUNK_SIZE then [pyStrip rawPara]
  else chunkPara (sentencesOf (pyStrip rawPara)) []

/-! ## Vector-store writes (lines 162-242 and 245-322)

The store backing the Supabase table is modelled as a list of rows.  Both
write paths key on `chunk_id`: the REST path calls
`supabase.table(...).upsert(data, on_conflict="chunk_id")` and the direct
PostgreSQL path issues `INSERT ... ON CONFLICT (chunk_id) DO UPDATE SET ...`.
Under the table's unique constraint on `chunk_id`, both mean: replace the row
holding this `chunk_id` if present, otherwise append a new row. -/

/-- A row of the `claim_chunks` table; `content` bundles the non-key columns
(`content`, `embedding`, `metadata`, `page_number`, `chunk_index`,
`parent_id`). -/
structure Row (α : Type) where
  chunkId : Str
  content : α
deriving DecidableEq

/-- The `chunk_id`-keyed upsert shared by both write paths
(`ON CONFLICT (chunk_id) DO UPDATE SET ...` on line 205, and
`on_conflict="chunk_id"` on line 288): replace the row with this key if one
exists, else append the new row. -/
def upsertRow {α : Type} : List (Row α) → Row α → List (Row α)
  | [], r => [r]
  | x :: rest, r => if x.chunkId = r.chunkId then r :: rest else x :: upsertRow rest r

/-- `store_via_postgres` (lines 162-242): upsert every chunk row in order
over the direct PostgreSQL connection. -/
def storeViaPostgres {α : Type} (rows : List (Row α)) (store : List (Row α)) :
    List (Row α) :=
  rows.foldl upsertRow store

/-- The row built for a chunk (lines 212-220 / 274-282): keyed by the chunk's
`chunk_id`, carrying its text together with the embedding of its text. -/
def rowOfChunk {β : Type} (embed : Str → β) (c : Chunk) : Row (Chunk × β) :=
  ⟨c.chunkId, (c, embed c.text)⟩

/-- The rows written for a page's chunk list. -/
def rowsOfChunks {β : Type} (embed : Str → β) (cs : List Chunk) :
    List (Row (Chunk × β)) :=
  cs.map (rowOfChunk embed)

/-- `store_in_supabase` (lines 245-322) with an explicit failure oracle:
`fail i` says whether the REST upsert of the `i`-th chunk raises.  Rows are
upserted one by one; at the first failure the function returns
`store_via_postgres` applied to the WHOLE row list (line 303:
`return store_via_postgres(child_nodes, parent_nodes, docstore)`), run on the
partially updated store. -/
def storeInSupabaseGo {α : Type} (fail : Nat → Bool) (allRows : List (Row α)) :
    Nat → List (Row α) → List (Row α) → List (Row α)
  | _, [], store => store
  | i, r :: rest, store =>
    if fail i then storeViaPostgres allRows store
    else storeInSupabaseGo fail allRows (i + 1) rest (upsertRow store r)

/-- `store_in_supabase` on a row list, starting from row 0. -/
def storeInSupabase {α : Type} (fail : Nat → Bool) (rows : List (Row α))
    (store : List (Row α)) : List (Row α) :=
  storeInSupabaseGo fail rows 0 rows store

/-! ## The orchestrator (`main.py`, lines 41-110) -/

/-- The dictionary returned by an agent's `answer_query`; the optional
fields model the `result.get(...)` lookups on line 87 of `main.py`. -/
structure AgentResult where
  answer : Str
  sources : List Str
  chunksUsed : Option Nat
  summariesUsed : Option Nat
  parentPagesUsed : Option Nat
deriving DecidableEq

/-- The response dictionary built on lines 80-91 of `main.py`. -/
structure QueryResponse where
  query : Str
  route : Str
  agent : Str
  answer : Str
  sources : List Str
  metaChunksUsed : Nat
  metaParentPagesUsed : Nat
  metaAgentType : Str
deriving DecidableEq

/-- `ClaimQueryOrchestrator.query` (lines 41-110 of `main.py`): route the
query, dispatch to the summary agent exactly when the route equals
`"summary"` and to the needle agent otherwise, then build the response.
`routeOf`, `summaryAnswer` and `needleAnswer` stand for the three agents,
which are external collaborators. -/
def orchestratorQuery (routeOf : Str → Str) (summaryAnswer needleAnswer : Str → AgentResult)
    (q : Str) : QueryResponse :=
  let route := routeOf q
  let pair : AgentResult × Str :=
    if route = "summary".data then (summaryAnswer q, "summary".data)
    else (needleAnswer q, "needle".data)
  { query := q
    route := route
    agent := pair.2
    answer := pair.1.answer
    sources := pair.1.sources
    metaChunksUsed := pair.1.chunksUsed.getD (pair.1.summariesUsed.getD 0)
    metaParentPagesUsed := pair.1.parentPagesUsed.getD 0
    metaAgentType := pair.2 }

/-! ## `load_pdf_with_metadata` (lines 24-54) -/

/-- One entry of `claim_metadata.json`. -/
structure MetaEntry where
  pageNumber : Nat
  header : Str
  involvedParties : List Str
  date : Str
  docType : Str
deriving DecidableEq

/-- A raw page produced by the PDF reader. -/
structure PdfDoc where
  text : Str
deriving DecidableEq

/-- A page enriched with its metadata entry (lines 42-50): the fields set by
`doc.metadata.update({...})` plus `doc.id_ = page_key`. -/
structure EnrichedDoc where
  text : Str
  id : Str
  pageNumber : Nat
  header : Str
  involvedParties : Str
  date : Str
  docType : Str
  pageId : Str
deriving DecidableEq

/-- Python `", ".flatten(parts)` (line 45). -/
def joinCommaSpace : List Str → Str
  | [] => []
  | [s] => s
  | s :: rest => s ++ ',' :: ' ' :: joinCommaSpace rest

/-- Dictionary lookup `metadata_dict[page_key]` /
`page_key in metadata_dict`. -/
def lookupMeta : List (Str × MetaEntry) → Str → Option MetaEntry
  | [], _ => none
  | (k, v) :: rest, key => if k = key then some v else lookupMeta rest key

/-- `f"page_{i}"` (line 39). -/
def pageKey (i : Nat) : Str := "page_".data ++ natStr i

/-- Lines 42-50: enrich one document with its metadata entry and set its id. -/
def enrichDoc (d : PdfDoc) (key : Str) (m : MetaEntry) : EnrichedDoc :=
  { text := d.text
    id := key
    pageNumber := m.pageNumber
    header := m.header
    involvedParties := joinCommaSpace m.involvedParties
    date := m.date
    docType := m.docType
    pageId := key }

/-- The enumeration loop of `load_pdf_with_metadata` (lines 37-51), with
`i` the 1-based page counter: a page whose key is present in the metadata
dictionary is enriched and appended; a page whose key is absent is skipped
without any error. -/
def loadAux (md : List (Str × MetaEntry)) : List PdfDoc → Nat → List EnrichedDoc
  | [], _ => []
  | d :: rest, i =>
    match lookupMeta md (pageKey i) with
    | some m => enrichDoc d (pageKey i) m :: loadAux md rest (i + 1)
    | none => loadAux md rest (i + 1)

/-- `load_pdf_with_metadata` (lines 24-54): enumerate the PDF pages from 1
and keep exactly those with a metadata entry. -/
def loadPdfWithMetadata (pdfDocs : List PdfDoc) (md : List (Str × MetaEntry)) :
    List EnrichedDoc :=
  loadAux md pdfDocs 1

/-! ## Lemmas about the keyed upsert -/

theorem upsertRow_same {α : Type} (s : List (Row α)) (r : Row α) :
    upsertRow (upsertRow s r) r = upsertRow s r := by
  induction s with
  | nil => simp [upsertRow]
  | cons x rest ih =>
    by_cases h : x.chunkId = r.chunkId
    · simp [upsertRow, h]
    · simp [upsertRow, h, ih]

/-- The keys of a store after an upsert: unchanged when the key was present,
extended by the new key otherwise. -/
theorem upsertRow_keys {α : Type} (s : List (Row α)) (r : Row α) :
    (upsertRow s r).map Row.chunkId =
      if r.chunkId ∈ s.map Row.chunkId then s.map Row.chunkId
      else s.map Row.chunkId ++ [r.chunkId] := by
  induction s with
  | nil => simp [upsertRow]
  | cons x rest ih =>
    by_cases h : x.chunkId = r.chunkId
    · simp [upsertRow, h]
    · have h' : r.chunkId ≠ x.chunkId := fun hh => h hh.symm
      have hcond : r.chunkId ∈ (x :: rest).map Row.chunkId ↔
          r.chunkId ∈ rest.map Row.chunkId := by
        simp [List.map_cons, h']
      by_cases hm : r.chunkId ∈ rest.map Row.chunkId
      · rw [if_pos (hcond.mpr hm)]
        simp only [upsertRow, if_neg h, List.map_cons, ih, if_pos hm]
      · rw [if_neg (fun hx => hm (hcond.mp hx))]
        simp only [upsertRow, if_neg h, List.map_cons, ih, if_neg hm, List.cons_append]

theorem upsertRow_length_of_mem {α : Type} (s : List (Row α)) (r : Row α)
    (h : r.chunkId ∈ s.map Row.chunkId) : (upsertRow s r).length = s.length := by
  induction s with
  | nil => simp at h
  | cons x rest ih =>
    by_cases hx : x.chunkId = r.chunkId
    · simp [upsertRow, hx]
    · have : r.chunkId ∈ rest.map Row.chunkId := by
        simp at h
        rcases h with h | h
        · exact absurd h.symm hx
        · simpa using h
      simp [upsertRow, hx, ih this]

theorem upsertRow_comm_of_mem {α : Type} (s : List (Row α)) (q r : Row α)
    (hne : r.chunkId ≠ q.chunkId) (hmem : r.chunkId ∈ s.map Row.chunkId) :
    upsertRow (upsertRow s q) r = upsertRow (upsertRow s r) q := by
  induction s with
  | nil => simp at hmem
  | cons x s' ih =>
    by_cases hxq : x.chunkId = q.chunkId
    · have hxr : ¬ x.chunkId = r.chunkId := fun h => hne (h.symm.trans hxq)
      have hqr : ¬ q.chunkId = r.chunkId := fun h => hne h.symm
      simp [upsertRow, hxq, hxr, hqr, hne]
    · by_cases hxr : x.chunkId = r.chunkId
      · simp [upsertRow, hxq, hxr, hne]
      · have : r.chunkId ∈ s'.map Row.chunkId := by
          simp at hmem
          rcases hmem with h | h
          · exact absurd h.symm hxr
          · simpa using h
        simp [upsertRow, hxq, hxr, ih this]

theorem upsertRow_storeViaPostgres_comm {α : Type} (rows : List (Row α)) :
    ∀ (t : List (Row α)) (r : Row α),
      r.chunkId ∉ rows.map Row.chunkId → r.chunkId ∈ t.map Row.chunkId →
      upsertRow (storeViaPostgres rows t) r = storeViaPostgres rows (upsertRow t r) := by
  induction rows with
  | nil => intro t r _ _; simp [storeViaPostgres]
  | cons q rows' ih =>
    intro t r hnot hmem
    have hne : r.chunkId ≠ q.chunkId := by
      intro h; exact hnot (by simp [h])
    have hnot' : r.chunkId ∉ rows'.map Row.chunkId := fun h => hnot (by simp [h])
    have hmem' : r.chunkId ∈ (upsertRow t q).map Row.chunkId := by
      rw [upsertRow_keys]
      by_cases hq : q.chunkId ∈ t.map Row.chunkId <;> simp [hq, hmem]
    show upsertRow (storeViaPostgres rows' (upsertRow t q)) r = _
    rw [ih (upsertRow t q) r hnot' hmem']
    show _ = storeViaPostgres rows' (upsertRow (upsertRow t r) q)
    rw [upsertRow_comm_of_mem t q r hne hmem]

/-- Re-running the full upsert pass after any prefix of it has already run
gives the same store as one full pass. -/
theorem storeViaPostgres_absorb_prefix {α : Type} :
    ∀ (pre rest : List (Row α)) (s : List (Row α)),
      ((pre ++ rest).map Row.chunkId).Nodup →
      storeViaPostgres (pre ++ rest) (storeViaPostgres pre s) =
        storeViaPostgres (pre ++ rest) s := by
  intro pre
  induction pre with
  | nil => intro rest s _; simp [storeViaPostgres]
  | cons p pre' ih =>
    intro rest s hnd
    have hp : p.chunkId ∉ (pre' ++ rest).map Row.chunkId := by
      simp only [List.map_cons, List.nodup_cons, List.cons_append] at hnd
      exact hnd.1
    have hp' : p.chunkId ∉ pre'.map Row.chunkId := fun h => hp (by simp [h])
    have hnd' : ((pre' ++ rest).map Row.chunkId).Nodup := by
      simp only [List.map_cons, List.nodup_cons, List.cons_append] at hnd
      exact hnd.2
    show storeViaPostgres (pre' ++ rest) (upsertRow (storeViaPostgres pre' (upsertRow s p)) p) = _
    have hmem : p.chunkId ∈ (upsertRow s p).map Row.chunkId := by
      rw [upsertRow_keys]
      by_cases h : p.chunkId ∈ s.map Row.chunkId <;> simp [h]
    rw [upsertRow_storeViaPostgres_comm pre' (upsertRow s p) p hp' hmem, upsertRow_same]
    exact ih rest (upsertRow s p) hnd'

/-- `C7` helper: upserting a whole row list twice equals upserting it once. -/
theorem storeViaPostgres_twice {α : Type} (rows s : List (Row α))
    (hnd : (rows.map Row.chunkId).Nodup) :
    storeViaPostgres rows (storeViaPostgres rows s) = storeViaPostgres rows s := by
  have := storeViaPostgres_absorb_prefix rows [] s (by simpa using hnd)
  simpa using this

/-- C8 helper: the supabase loop, however far it got before failing, ends in
the same store as one full PostgreSQL pass. -/
theorem storeInSupabaseGo_eq {α : Type} (fail : Nat → Bool) (rows : List (Row α))
    (hnd : (rows.map Row.chunkId).Nodup) (s : List (Row α)) :
    ∀ (rest pre : List (Row α)) (i : Nat),
      rows = pre ++ rest →
      storeInSupabaseGo fail rows i rest (storeViaPostgres pre s) =
        storeViaPostgres rows s := by
  intro rest
  induction rest with
  | nil =>
    intro pre i h
    simp only [storeInSupabaseGo]
    rw [h]; simp [storeViaPostgres]
  | cons r rest' ih =>
    intro pre i h
    simp only [storeInSupabaseGo]
    by_cases hf : fail i
    · simp only [hf, if_true]
      rw [h]
      exact storeViaPostgres_absorb_prefix pre (r :: rest') s (h ▸ hnd)
    · simp only [hf, if_false]
      have hpre : storeViaPostgres (pre ++ [r]) s = upsertRow (storeViaPostgres pre s) r := by
        simp [storeViaPostgres, List.foldl_append]
      rw [← hpre]
      exact ih (pre ++ [r]) (i + 1) (by simp [h])

/-! ## Claims C7 and C8 -/

/-- C7: chunk writes are idempotent upserts keyed by `chunk_id`: writing a
row whose key already exists replaces the matching row in place (the key
sequence and the row count are unchanged, so no duplicate appears), and
re-running the whole write pass for a page's rows leaves the store
unchanged (same ids, same content). -/
theorem claim_C7_idempotent_upsert {α : Type} (s : List (Row α)) (r : Row α)
    (rows : List (Row α)) :
    (r.chunkId ∈ s.map Row.chunkId →
      (upsertRow s r).length = s.length ∧
      (upsertRow s r).map Row.chunkId = s.map Row.chunkId) ∧
    ((rows.map Row.chunkId).Nodup →
      storeViaPostgres rows (storeViaPostgres rows s) = storeViaPostgres rows s) := by
  constructor
  · intro hmem
    refine ⟨upsertRow_length_of_mem s r hmem, ?_⟩
    rw [upsertRow_keys, if_pos hmem]
  · intro hnd
    exact storeViaPostgres_twice rows s hnd

/-- C7 witness at a concrete store and row list. -/
theorem claim_C7_witness :
    let s : List (Row Nat) := [⟨"page_1_chunk_0".data, 5⟩, ⟨"page_1_chunk_1".data, 6⟩]
    let r : Row Nat := ⟨"page_1_chunk_0".data, 7⟩
    let rows : List (Row Nat) := [⟨"page_1_chunk_0".data, 7⟩, ⟨"page_1_chunk_1".data, 8⟩]
    (upsertRow s r).length = s.length ∧
      (upsertRow s r).map Row.chunkId = s.map Row.chunkId ∧
      storeViaPostgres rows (storeViaPostgres rows s) = storeViaPostgres rows s := by
  intro s r rows
  have h := claim_C7_idempotent_upsert s r rows
  have h1 := h.1 (by decide)
  have h2 := h.2 (by decide)
  exact ⟨h1.1, h1.2, h2⟩

/-- C8: if the REST write path fails at any chunk, the loop of
`store_in_supabase` returns `store_via_postgres` on the full chunk list, and
because both paths use the same `chunk_id`-keyed upsert the final store is
identical to the store a single clean full pass would have produced —
whatever rows were already written before the failure are simply
re-upserted, never duplicated. -/
theorem claim_C8_fallback_transparent {α : Type} (fail : Nat → Bool)
    (rows s : List (Row α)) (hnd : (rows.map Row.chunkId).Nodup) :
    storeInSupabase fail rows s = storeViaPostgres rows s := by
  unfold storeInSupabase
  have := storeInSupabaseGo_eq fail rows hnd s rows [] 0 (by simp)
  simpa [storeViaPostgres] using this

/-- C8 witness: a failure in the middle of the REST pass still produces the
full-pass store. -/
theorem claim_C8_witness :
    storeInSupabase (fun i => decide (i = 1))
        [⟨"page_1_chunk_0".data, (5 : Nat)⟩, ⟨"page_1_chunk_1".data, 6⟩,
         ⟨"page_1_chunk_2".data, 7⟩] [] =
      storeViaPostgres
        [⟨"page_1_chunk_0".data, (5 : Nat)⟩, ⟨"page_1_chunk_1".data, 6⟩,
         ⟨"page_1_chunk_2".data, 7⟩] [] :=
  claim_C8_fallback_transparent (fun i => decide (i = 1)) _ [] (by decide)

/-! ## Claim C9 -/

/-- C9: the orchestrator dispatches to the summary agent exactly when the
route decision equals `"summary"` and to the needle agent for every other
route decision, and the returned response always carries the route used. -/
theorem claim_C9_orchestrator_dispatch (routeOf : Str → Str)
    (summaryAnswer needleAnswer : Str → AgentResult) (q : Str) :
    (orchestratorQuery routeOf summaryAnswer needleAnswer q).route = routeOf q ∧
    (routeOf q = "summary".data →
      (orchestratorQuery routeOf summaryAnswer needleAnswer q).agent = "summary".data ∧
      (orchestratorQuery routeOf summaryAnswer needleAnswer q).answer =
        (summaryAnswer q).answer) ∧
    (routeOf q ≠ "summary".data →
      (orchestratorQuery routeOf summaryAnswer needleAnswer q).agent = "needle".data ∧
      (orchestratorQuery routeOf summaryAnswer needleAnswer q).answer =
        (needleAnswer q).answer) := by
  refine ⟨rfl, fun h => ?_, fun h => ?_⟩
  · simp [orchestratorQuery, h]
  · simp [orchestratorQuery, h]

/-- C9 witness: a concrete summary-routed query and a concrete
needle-routed query. -/
theorem claim_C9_witness :
    let ans : Str → AgentResult := fun _ => ⟨"a".data, [], some 2, none, some 1⟩
    ((orchestratorQuery (fun _ => "summary".data) ans ans "q".data).agent = "summary".data ∧
      (orchestratorQuery (fun _ => "other".data) ans ans "q".data).agent = "needle".data) ∧
    (orchestratorQuery (fun _ => "other".data) ans ans "q".data).route = "other".data := by
  intro ans
  have h1 := claim_C9_orchestrator_dispatch (fun _ => "summary".data) ans ans "q".data
  have h2 := claim_C9_orchestrator_dispatch (fun _ => "other".data) ans ans "q".data
  exact ⟨⟨(h1.2.1 (by decide)).1, (h2.2.2 (by decide)).1⟩, h2.1⟩

/-! ## Claim C10 -/

/-- Characterization of the loading loop as an index-paired filter. -/
theorem loadAux_eq_filterMap (md : List (Str × MetaEntry)) :
    ∀ (docs : List PdfDoc) (i : Nat),
      loadAux md docs i =
        ((List.range' i docs.length).zip docs).filterMap
          (fun p => (lookupMeta md (pageKey p.1)).map (enrichDoc p.2 (pageKey p.1))) := by
  intro docs
  induction docs with
  | nil => intro i; simp [loadAux]
  | cons d rest ih =>
    intro i
    rw [List.length_cons, List.range'_succ]
    simp only [List.zip_cons_cons, List.filterMap_cons]
    cases h : lookupMeta md (pageKey i) with
    | none => simp [loadAux, h, ih (i + 1)]
    | some m => simp [loadAux, h, ih (i + 1)]

/-- Every document the loader returns has a metadata entry under its key. -/
theorem loadAux_mem_lookup (md : List (Str × MetaEntry)) :
    ∀ (docs : List PdfDoc) (i : Nat) (e : EnrichedDoc),
      e ∈ loadAux md docs i → (lookupMeta md e.pageId).isSome := by
  intro docs
  induction docs with
  | nil => intro i e h; simp [loadAux] at h
  | cons d rest ih =>
    intro i e h
    unfold loadAux at h
    cases hm : lookupMeta md (pageKey i) with
    | none => rw [hm] at h; exact ih (i + 1) e h
    | some m =>
      rw [hm] at h
      rcases List.mem_cons.mp h with he | he
      · subst he; simp [enrichDoc, hm]
      · exact ih (i + 1) e he

/-- C10: only PDF pages whose key `page_{i}` (1-based) appears in the
metadata dictionary are enriched and returned; a page with no matching
entry is silently dropped, with no error raised — the loader is the total
filter-map over the 1-based enumeration of the PDF pages. -/
theorem claim_C10_metadata_gated_loading (pdfDocs : List PdfDoc)
    (md : List (Str × MetaEntry)) :
    loadPdfWithMetadata pdfDocs md =
      ((List.range' 1 pdfDocs.length).zip pdfDocs).filterMap
        (fun p => (lookupMeta md (pageKey p.1)).map (enrichDoc p.2 (pageKey p.1))) ∧
    (∀ e ∈ loadPdfWithMetadata pdfDocs md, (lookupMeta md e.pageId).isSome) ∧
    (loadPdfWithMetadata pdfDocs md).length ≤ pdfDocs.length := by
  refine ⟨loadAux_eq_filterMap md pdfDocs 1, ?_, ?_⟩
  · intro e he
    exact loadAux_mem_lookup md pdfDocs 1 e he
  · unfold loadPdfWithMetadata
    rw [loadAux_eq_filterMap md pdfDocs 1]
    calc (((List.range' 1 pdfDocs.length).zip pdfDocs).filterMap _).length
        ≤ ((List.range' 1 pdfDocs.length).zip pdfDocs).length :=
          List.length_filterMap_le _ _
      _ ≤ pdfDocs.length := by rw [List.length_zip]; omega

/-- C10 witness: two PDF pages, metadata only for `page_2`; page 1 is
silently dropped and page 2 is enriched and returned. -/
theorem claim_C10_witness :
    let docs : List PdfDoc := [⟨"one".data⟩, ⟨"two".data⟩]
    let m2 : MetaEntry := ⟨2, "h2".data, ["x".data], "d".data, "Details".data⟩
    let md : List (Str × MetaEntry) := [("page_2".data, m2)]
    loadPdfWithMetadata docs md =
      ((List.range' 1 docs.length).zip docs).filterMap
        (fun p => (lookupMeta md (pageKey p.1)).map (enrichDoc p.2 (pageKey p.1))) ∧
    ∀ e ∈ loadPdfWithMetadata docs md, (lookupMeta md e.pageId).isSome := by
  intro docs m2 md
  have h := claim_C10_metadata_gated_loading docs md
  exact ⟨h.1, h.2.1⟩

/-! ## Claim C6: indices, ids and sizes of the page's chunks -/

/-- The shape every chunk of a page has by construction: id derived from the
parent id and the chunk index, size equal to the text length, parent id and
metadata copied from the page. -/
def chunkShape (pg : Page) (c : Chunk) : Prop :=
  c.chunkId = pg.id ++ "_chunk_".data ++ natStr c.chunkIndex ∧
  c.chunkSize = c.text.length ∧ c.parentId = pg.id ∧ c.meta = pg.meta

/-- The running invariant of the page loop: indices are `0, 1, ...` in
emission order and every chunk is well-shaped. -/
def chunksOK (pg : Page) (acc : List Chunk) : Prop :=
  acc.map Chunk.chunkIndex = List.range acc.length ∧ ∀ c ∈ acc, chunkShape pg c

theorem chunksOK_nil (pg : Page) : chunksOK pg [] := by
  constructor
  · simp
  · intro c hc; simp at hc

theorem chunksOK_append (pg : Page) (acc : List Chunk) (t : Str)
    (h : chunksOK pg acc) : chunksOK pg (acc ++ [mkChunk pg acc t]) := by
  constructor
  · rw [List.map_append, h.1]
    simp [mkChunk, List.range_succ]
  · intro c hc
    rcases List.mem_append.mp hc with hc | hc
    · exact h.2 c hc
    · rcases List.mem_singleton.mp hc with rfl
      exact ⟨rfl, rfl, rfl, rfl⟩

theorem chunkParaRec_chunksOK (pg : Page) :
    ∀ (sents : List Str) (buf : Str) (acc : List Chunk),
      chunksOK pg acc → chunksOK pg (chunkParaRec pg sents buf acc) := by
  intro sents
  induction sents with
  | nil =>
    intro buf acc h
    unfold chunkParaRec
    split
    · exact h
    · exact chunksOK_append pg acc _ h
  | cons s rest ih =>
    intro buf acc h
    unfold chunkParaRec
    split
    · exact ih buf acc h
    · split
      · exact ih _ _ (chunksOK_append pg acc _ h)
      · exact ih _ acc h

theorem processPara_chunksOK (pg : Page) (acc : List Chunk) (p : Str)
    (h : chunksOK pg acc) : chunksOK pg (processPara pg acc p) := by
  unfold processPara
  split
  · exact h
  · split
    · exact chunksOK_append pg acc _ h
    · exact chunkParaRec_chunksOK pg _ [] acc h

theorem createNeedleChunksPage_chunksOK (pg : Page) :
    chunksOK pg (createNeedleChunksPage pg) := by
  unfold createNeedleChunksPage
  generalize splitParas pg.text = ps
  have : ∀ (ps : List Str) (acc : List Chunk), chunksOK pg acc →
      chunksOK pg (ps.foldl (processPara pg) acc) := by
    intro ps
    induction ps with
    | nil => intro acc h; exact h
    | cons p rest ih =>
      intro acc h
      exact ih _ (processPara_chunksOK pg acc p h)
  exact this ps [] (chunksOK_nil pg)

/-- The text projection of the record-level sentence loop is the text-level
loop appended after the accumulator. -/
theorem chunkParaRec_texts (pg : Page) :
    ∀ (sents : List Str) (buf : Str) (acc : List Chunk),
      (chunkParaRec pg sents buf acc).map Chunk.text =
        acc.map Chunk.text ++ chunkPara sents buf := by
  intro sents
  induction sents with
  | nil =>
    intro buf acc
    unfold chunkParaRec chunkPara
    split
    · simp
    · simp [mkChunk]
  | cons s rest ih =>
    intro buf acc
    unfold chunkParaRec chunkPara
    split
    · exact ih buf acc
    · split
      · rw [ih]
        simp [mkChunk]
      · exact ih _ acc

/-- The text projection of one paragraph's processing. -/
theorem processPara_texts (pg : Page) (acc : List Chunk) (p : Str) :
    (processPara pg acc p).map Chunk.text = acc.map Chunk.text ++ paraTexts p := by
  unfold processPara paraTexts
  split
  · simp
  · split
    · simp [mkChunk]
    · exact chunkParaRec_texts pg _ [] acc

/-- The chunk texts of a page are the concatenation, in paragraph order, of
each raw paragraph's chunk texts. -/
theorem createNeedleChunksPage_texts (pg : Page) :
    (createNeedleChunksPage pg).map Chunk.text =
      ((splitParas pg.text).map paraTexts).flatten := by
  unfold createNeedleChunksPage
  generalize splitParas pg.text = ps
  have : ∀ (ps : List Str) (acc : List Chunk),
      (ps.foldl (processPara pg) acc).map Chunk.text =
        acc.map Chunk.text ++ (ps.map paraTexts).flatten := by
    intro ps
    induction ps with
    | nil => intro acc; simp
    | cons p rest ih =>
      intro acc
      simp only [List.foldl_cons, List.map_cons, List.flatten]
      rw [ih, processPara_texts]
      simp
  simpa using this ps []

/-- When every stripped paragraph fits in `CHUNK_SIZE`, each non-empty one
yields exactly its own single chunk. -/
theorem join_paraTexts_of_small (ps : List Str)
    (h : ∀ p ∈ ps, (pyStrip p).length ≤ CHUNK_SIZE) :
    (ps.map paraTexts).flatten = (ps.map pyStrip).filter (fun q => q ≠ []) := by
  induction ps with
  | nil => simp
  | cons p rest ih =>
    have hp := h p (by simp)
    have hrest := ih fun q hq => h q (by simp [hq])
    simp only [List.map_cons, List.flatten, List.filter_cons]
    rw [hrest]
    unfold paraTexts
    by_cases he : pyStrip p = []
    · simp [he]
    · simp [he, hp, not_le]

/-- C6: the chunker splits the page text on double newlines discarding
paragraphs that are empty after stripping; every paragraph of (stripped)
length at most `CHUNK_SIZE` is emitted as exactly one chunk in paragraph
order; `chunkIndex` runs `0, 1, ...` across the whole page in emission
order; each chunk's id is the parent id followed by `"_chunk_"` and the
index, its size is the length of its (stripped) text, and the parent id and
metadata are copied onto it. -/
theorem claim_C6_page_chunking (pg : Page) :
    ((createNeedleChunksPage pg).map Chunk.chunkIndex =
        List.range (createNeedleChunksPage pg).length ∧
      ∀ c ∈ createNeedleChunksPage pg, chunkShape pg c) ∧
    ((∀ p ∈ splitParas pg.text, (pyStrip p).length ≤ CHUNK_SIZE) →
      (createNeedleChunksPage pg).map Chunk.text =
        ((splitParas pg.text).map pyStrip).filter (fun q => q ≠ [])) := by
  refine ⟨createNeedleChunksPage_chunksOK pg, fun h => ?_⟩
  rw [createNeedleChunksPage_texts pg, join_paraTexts_of_small _ h]

/-- C6 witness: a concrete two-paragraph page (with a whitespace-only
paragraph in the middle that is discarded). -/
theorem claim_C6_witness :
    let pm : PageMeta := ⟨2, "h".data, "p".data, "d".data, "Details".data, "page_2".data⟩
    let pg : Page := ⟨"page_2".data, pm, ("ab cd".data ++ '\n' :: '\n' :: ' ' ::
      '\n' :: '\n' :: "ef".data)⟩
    ((createNeedleChunksPage pg).map Chunk.chunkIndex =
        List.range (createNeedleChunksPage pg).length ∧
      ∀ c ∈ createNeedleChunksPage pg, chunkShape pg c) ∧
    (createNeedleChunksPage pg).map Chunk.text =
      ((splitParas pg.text).map pyStrip).filter (fun q => q ≠ []) := by
  intro pm pg
  have h := claim_C6_page_chunking pg
  exact ⟨h.1, h.2 (by decide)⟩

/-! ## Claim C1: the size bound -/

/-- Maximum of a list of naturals (0 for the empty list). -/
def maxNat (l : List Nat) : Nat := l.foldl max 0

theorem le_foldl_max (l : List Nat) : ∀ i : Nat, i ≤ l.foldl max i := by
  induction l with
  | nil => intro i; simp
  | cons x rest ih =>
    intro i
    calc i ≤ max i x := le_max_left i x
      _ ≤ rest.foldl max (max i x) := ih (max i x)
      _ = (x :: rest).foldl max i := rfl

theorem le_maxNat_of_mem {a : Nat} {l : List Nat} (h : a ∈ l) : a ≤ maxNat l := by
  have aux : ∀ (l : List Nat) (i : Nat), a ∈ l → a ≤ l.foldl max i := by
    intro l
    induction l with
    | nil => intro i h'; simp at h'
    | cons x rest ih =>
      intro i h'
      rcases List.mem_cons.mp h' with rfl | h'
      · calc a ≤ max i a := le_max_right i a
          _ ≤ rest.foldl max (max i a) := le_foldl_max rest (max i a)
          _ = (a :: rest).foldl max i := rfl
      · exact ih (max i x) h'
  exact aux l 0 h

/-- The longest stripped sentence of a paragraph. -/
def maxSentLenPara (para : Str) : Nat :=
  maxNat ((sentencesOf para).map fun s => (pyStrip s).length)

/-- The longest stripped sentence over all stripped paragraphs of a page. -/
def maxSentLenPage (pg : Page) : Nat :=
  maxNat ((splitParas pg.text).map fun p => maxSentLenPara (pyStrip p))

theorem pyStrip_length_le (s : Str) : (pyStrip s).length ≤ s.length := by
  unfold pyStrip
  calc ((s.dropWhile fun c => c.isWhitespace).reverse.dropWhile
          fun c => c.isWhitespace).reverse.length
      = ((s.dropWhile fun c => c.isWhitespace).reverse.dropWhile
          fun c => c.isWhitespace).length := List.length_reverse _
    _ ≤ (s.dropWhile fun c => c.isWhitespace).reverse.length :=
        (List.dropWhile_sublist _).length_le
    _ = (s.dropWhile fun c => c.isWhitespace).length := List.length_reverse _
    _ ≤ s.length := (List.dropWhile_sublist _).length_le

theorem afterFirstSpace_length_le (s : Str) : (afterFirstSpace s).length ≤ s.length := by
  unfold afterFirstSpace
  cases findChar ' ' s with
  | none => exact le_refl _
  | some i => simp [List.length_drop]

theorem afterLastSentenceEnd_length_le (s : Str) :
    (afterLastSentenceEnd s).length ≤ s.length := by
  unfold afterLastSentenceEnd
  cases rfindDotSpace s with
  | none => exact le_refl _
  | some i => simp [List.length_drop]

/-- The corrected overlap seed never exceeds `CHUNK_OVERLAP` characters. -/
theorem correctOverlap_length_le (buf : Str) :
    (correctOverlap buf).length ≤ CHUNK_OVERLAP := by
  unfold correctOverlap
  calc (afterLastSentenceEnd (afterFirstSpace (buf.drop (buf.length - CHUNK_OVERLAP)))).length
      ≤ (afterFirstSpace (buf.drop (buf.length - CHUNK_OVERLAP))).length :=
        afterLastSentenceEnd_length_le _
    _ ≤ (buf.drop (buf.length - CHUNK_OVERLAP)).length := afterFirstSpace_length_le _
    _ = buf.length - (buf.length - CHUNK_OVERLAP) := List.length_drop _ _
    _ ≤ CHUNK_OVERLAP := by omega

/-- Size invariant of the sentence loop: if every stripped sentence has
length at most `M` and the running buffer is within the bound
`max CHUNK_SIZE (CHUNK_OVERLAP + 1 + M)`, every emitted chunk text is too. -/
theorem chunkPara_length_le (M : Nat) :
    ∀ (sents : List Str) (buf : Str),
      (∀ s ∈ sents, (pyStrip s).length ≤ M) →
      buf.length ≤ max CHUNK_SIZE (CHUNK_OVERLAP + 1 + M) →
      ∀ t ∈ chunkPara sents buf, t.length ≤ max CHUNK_SIZE (CHUNK_OVERLAP + 1 + M) := by
  intro sents
  induction sents with
  | nil =>
    intro buf _ hbuf t ht
    unfold chunkPara at ht
    split at ht
    · simp at ht
    · rcases List.mem_singleton.mp ht with rfl
      exact le_trans (pyStrip_length_le buf) hbuf
  | cons s rest ih =>
    intro buf hs hbuf t ht
    have hsent : (pyStrip s).length ≤ M := hs s (by simp)
    have hrest : ∀ q ∈ rest, (pyStrip q).length ≤ M := fun q hq => hs q (by simp [hq])
    unfold chunkPara at ht
    split at ht
    · exact ih buf hrest hbuf t ht
    · split at ht
      · rcases List.mem_cons.mp ht with rfl | ht
        · exact le_trans (pyStrip_length_le buf) hbuf
        · refine ih _ hrest ?_ t ht
          split
          · simp only [List.length_append, List.length_cons]
            have := correctOverlap_length_le buf
            omega
          · omega
      · refine ih _ hrest ?_ t ht
        split
        · omega
        · rename_i hcl _
          rw [not_and_or] at hcl
          rcases hcl with hcl | hcl
          · simp at hcl
            simp [hcl] at hbuf ⊢
            omega
          · push_neg at hcl
            simp only [List.length_append, List.length_cons]
            have h300 : buf.length + (pyStrip s).length + 1 ≤ CHUNK_SIZE := hcl
            omega

/-- Every chunk's size is `chunkSize = text.length` and its text belongs to
some paragraph's chunk-text list. -/
theorem claim_C1_amended_size_bound (pg : Page) :
    ∀ c ∈ createNeedleChunksPage pg,
      c.chunkSize ≤ max CHUNK_SIZE (CHUNK_OVERLAP + 1 + maxSentLenPage pg) := by
  intro c hc
  have hshape := (createNeedleChunksPage_chunksOK pg).2 c hc
  have htext : c.text ∈ (createNeedleChunksPage pg).map Chunk.text := List.mem_map_of_mem _ hc
  rw [createNeedleChunksPage_texts pg] at htext
  rcases List.mem_flatten.mp htext with ⟨l, hl, hcl⟩
  rcases List.mem_map.mp hl with ⟨p, hp, rfl⟩
  rw [hshape.2.1]
  have hM : maxSentLenPara (pyStrip p) ≤ maxSentLenPage pg := by
    apply le_maxNat_of_mem
    exact List.mem_map_of_mem _ hp
  unfold paraTexts at hcl
  split at hcl
  · simp at hcl
  · split at hcl
    · have he := List.mem_singleton.mp hcl
      rw [he]
      rename_i hsmall
      exact le_trans hsmall (le_max_left _ _)
    · have hb := chunkPara_length_le (maxSentLenPara (pyStrip p))
        (sentencesOf (pyStrip p)) []
        (fun s hsm => le_maxNat_of_mem (List.mem_map_of_mem _ hsm))
        (by simp) c.text hcl
      calc c.text.length ≤ max CHUNK_SIZE (CHUNK_OVERLAP + 1 + maxSentLenPara (pyStrip p)) := hb
        _ ≤ max CHUNK_SIZE (CHUNK_OVERLAP + 1 + maxSentLenPage pg) := by
            apply max_le_max (le_refl _)
            omega

/-- A throwaway metadata record for concrete test pages. -/
def cexMeta : PageMeta := ⟨1, "h".data, "p".data, "d".data, "Details".data, "page_1".data⟩

/-- First sentence body of the C1 counterexample paragraph: 211 `a`s, one
space, 37 more `a`s (249 characters). -/
def cexA : Str := List.replicate 211 'a' ++ ' ' :: List.replicate 37 'a'

/-- A 543-character paragraph with three sentences of stripped lengths
250, 281 and 10 — none exceeding `CHUNK_SIZE`. -/
def cexPara1 : Str :=
  cexA ++ '.' :: ' ' :: (List.replicate 280 'b' ++ '.' :: ' ' :: List.replicate 10 'c')

/-- A page whose text is the single paragraph `cexPara1`. -/
def cexPage1 : Page := ⟨"page_1".data, cexMeta, cexPara1⟩

/-- C1 counterexample: on `cexPage1` the chunker emits a chunk of size 320,
strictly above `CHUNK_SIZE = 300`, although every (stripped) sentence of the
paragraph has length at most 300 — the oversized chunk is an overlap seed
plus a 281-character sentence, not a single indivisible oversized
sentence. -/
theorem claim_C1_counterexample :
    (createNeedleChunksPage cexPage1).map Chunk.chunkSize = [250, 320, 51] ∧
    (∀ s ∈ sentencesOf cexPara1, (pyStrip s).length ≤ CHUNK_SIZE) ∧
    ¬ (∀ c ∈ createNeedleChunksPage cexPage1, c.chunkSize ≤ CHUNK_SIZE) := by
  refine ⟨by decide, by decide, ?_⟩
  intro hall
  have := hall ((createNeedleChunksPage cexPage1).get ⟨1, by decide⟩) (by decide)
  revert this
  decide

/-- A one-chunk page used to witness the amended size bound. -/
def wPage1 : Page := ⟨"page_7".data, cexMeta, "ab".data⟩

/-- C1 witness: the amended bound applied to a concrete page and chunk. -/
theorem claim_C1_witness :
    mkChunk wPage1 [] "ab".data ∈ createNeedleChunksPage wPage1 ∧
    (mkChunk wPage1 [] "ab".data).chunkSize ≤
      max CHUNK_SIZE (CHUNK_OVERLAP + 1 + maxSentLenPage wPage1) :=
  ⟨by decide, claim_C1_amended_size_bound wPage1 _ (by decide)⟩

/-! ## Clean text: the predicates under which the overlap machinery is exact -/

/-- No two consecutive spaces. -/
def noDoubleSpace : Str → Bool
  | [] => true
  | [_] => true
  | a :: b :: l => if a = ' ' ∧ b = ' ' then false else noDoubleSpace (b :: l)

/-- A clean piece of text: non-empty, the only whitespace it contains is a
plain space, it neither starts nor ends with a space, and it has no double
spaces. -/
def good (s : Str) : Prop :=
  s ≠ [] ∧ (∀ c ∈ s, c.isWhitespace → c = ' ') ∧
  s.head? ≠ some ' ' ∧ s.getLast? ≠ some ' ' ∧ noDoubleSpace s = true

instance goodDecidable (s : Str) : Decidable (good s) := by
  unfold good
  infer_instance

theorem noDoubleSpace_cons (x : Char) (l : Str) (h : noDoubleSpace (x :: l) = true) :
    noDoubleSpace l = true := by
  cases l with
  | nil => rfl
  | cons y l' =>
    unfold noDoubleSpace at h
    split at h
    · exact absurd h (by simp)
    · exact h

theorem noDoubleSpace_append_right :
    ∀ (t r : Str), noDoubleSpace (t ++ r) = true → noDoubleSpace r = true := by
  intro t
  induction t with
  | nil => intro r h; exact h
  | cons x t' ih => intro r h; exact ih r (noDoubleSpace_cons x (t' ++ r) h)

theorem noDoubleSpace_after_space :
    ∀ (t : Str) (c : Char) (r : Str),
      noDoubleSpace (t ++ ' ' :: c :: r) = true → c ≠ ' ' := by
  intro t
  induction t with
  | nil =>
    intro c r h hc
    subst hc
    simp [noDoubleSpace] at h
  | cons x t' ih =>
    intro c r h
    exact ih c r (noDoubleSpace_cons x (t' ++ ' ' :: c :: r) h)

theorem noDoubleSpace_space_cons (b : Str) (hh : b.head? ≠ some ' ')
    (hb : noDoubleSpace b = true) : noDoubleSpace (' ' :: b) = true := by
  cases b with
  | nil => rfl
  | cons y b' =>
    have hy : ¬ (' ' = ' ' ∧ y = ' ') := by
      rintro ⟨-, rfl⟩
      exact hh rfl
    unfold noDoubleSpace
    rw [if_neg hy]
    exact hb

theorem getLastOpt_append_cons (a : Str) (c : Char) (b : Str) :
    (a ++ c :: b).getLast? = (c :: b).getLast? := by
  induction a with
  | nil => rfl
  | cons x a' ih =>
    cases a' with
    | nil => rw [List.cons_append, List.nil_append, List.getLast?_cons_cons]
    | cons y a'' =>
      rw [List.cons_append, List.cons_append, List.getLast?_cons_cons]
      exact ih

theorem getLastOpt_append_right (a b : Str) (h : b ≠ []) :
    (a ++ b).getLast? = b.getLast? := by
  cases b with
  | nil => exact absurd rfl h
  | cons c b' => exact getLastOpt_append_cons a c b'

theorem noDoubleSpace_append (a b : Str) (ha : noDoubleSpace a = true)
    (hb : noDoubleSpace b = true) (hlast : a.getLast? ≠ some ' ')
    (hhead : b.head? ≠ some ' ') : noDoubleSpace (a ++ ' ' :: b) = true := by
  induction a with
  | nil => exact noDoubleSpace_space_cons b hhead hb
  | cons x a' ih =>
    cases a' with
    | nil =>
      have hx : x ≠ ' ' := fun hc => hlast (by simp [hc])
      show noDoubleSpace (x :: ' ' :: b) = true
      unfold noDoubleSpace
      rw [if_neg (by rintro ⟨rfl, -⟩; exact hx rfl)]
      exact noDoubleSpace_space_cons b hhead hb
    | cons y a'' =>
      have ha' : noDoubleSpace (y :: a'') = true := noDoubleSpace_cons x (y :: a'') ha
      have hlast' : (y :: a'').getLast? ≠ some ' ' := by
        rw [List.getLast?_cons_cons] at hlast
        exact hlast
      have hxy : ¬ (x = ' ' ∧ y = ' ') := by
        intro hc
        unfold noDoubleSpace at ha
        rw [if_pos hc] at ha
        exact absurd ha (by simp)
      show noDoubleSpace (x :: y :: (a'' ++ ' ' :: b)) = true
      unfold noDoubleSpace
      rw [if_neg hxy]
      exact ih ha' hlast'

theorem dropWhile_ws_eq_self (s : Str) (hos : ∀ c ∈ s, c.isWhitespace → c = ' ')
    (hh : s.head? ≠ some ' ') : s.dropWhile (fun c => c.isWhitespace) = s := by
  cases s with
  | nil => rfl
  | cons c t =>
    have hc : c ≠ ' ' := fun h => hh (by simp [h])
    have : ¬ (c.isWhitespace = true) := fun hw => hc (hos c (by simp) hw)
    simp [List.dropWhile_cons, this]

theorem pyStrip_eq_self (s : Str) (h : good s) : pyStrip s = s := by
  obtain ⟨hne, hos, hh, hl, -⟩ := h
  unfold pyStrip
  rw [dropWhile_ws_eq_self s hos hh]
  rw [dropWhile_ws_eq_self s.reverse
    (fun c hc hw => hos c (List.mem_reverse.mp hc) hw)
    (by rw [List.head?_reverse]; exact hl)]
  exact List.reverse_reverse s

theorem good_head_ne_nil {s : Str} (h : good s) : s ≠ [] := h.1

theorem good_append (a b : Str) (ha : good a) (hb : good b) : good (a ++ ' ' :: b) := by
  obtain ⟨hane, haos, hah, hal, hands⟩ := ha
  obtain ⟨hbne, hbos, hbh, hbl, hbnds⟩ := hb
  refine ⟨by simp, ?_, ?_, ?_, ?_⟩
  · intro c hc hw
    rcases List.mem_append.mp hc with hc | hc
    · exact haos c hc hw
    · rcases List.mem_cons.mp hc with rfl | hc
      · rfl
      · exact hbos c hc hw
  · cases a with
    | nil => exact absurd rfl hane
    | cons x a' =>
      rw [List.cons_append]
      simpa using fun hx => hah (by simp [hx])
  · rw [getLastOpt_append_cons a ' ' b]
    cases b with
    | nil => exact absurd rfl hbne
    | cons y b' =>
      rw [List.getLast?_cons_cons]
      exact hbl
  · exact noDoubleSpace_append a b hands hbnds hal hbh

/-- A non-empty suffix of a clean string that does not start with a space is
itself clean. -/
theorem good_of_suffix (base s : Str) (hb : good base) (hsuf : s <:+ base)
    (hne : s ≠ []) (hh : s.head? ≠ some ' ') : good s := by
  obtain ⟨pre, rfl⟩ := hsuf
  obtain ⟨-, hos, -, hl, hnds⟩ := hb
  refine ⟨hne, ?_, hh, ?_, ?_⟩
  · intro c hc hw
    exact hos c (List.mem_append.mpr (Or.inr hc)) hw
  · rw [getLastOpt_append_right pre s hne] at hl
    exact hl
  · exact noDoubleSpace_append_right pre s hnds

/-! ## Structure of the boundary corrections -/

theorem findChar_eq_none_iff (c : Char) : ∀ s : Str, findChar c s = none ↔ c ∉ s := by
  intro s
  induction s with
  | nil => simp [findChar]
  | cons x rest ih =>
    by_cases hx : x = c
    · simp [findChar, hx]
    · have hcx : ¬ c = x := fun hc => hx hc.symm
      simp only [findChar, if_neg hx, List.mem_cons]
      rw [Option.map_eq_none', ih]
      constructor
      · intro hn hmem
        rcases hmem with hmem | hmem
        · exact hcx hmem
        · exact hn hmem
      · intro hn hmem
        exact hn (Or.inr hmem)

theorem findChar_append_not_mem (c : Char) :
    ∀ (t r : Str), c ∉ t → findChar c (t ++ c :: r) = some t.length := by
  intro t
  induction t with
  | nil => intro r _; simp [findChar]
  | cons x t' ih =>
    intro r h
    have hx : ¬ x = c := fun hh => h (by simp [hh])
    have h' : c ∉ t' := fun hh => h (by simp [hh])
    simp [findChar, hx, ih r h']

theorem exists_first_space : ∀ (s : Str), ' ' ∈ s →
    ∃ t r : Str, s = t ++ ' ' :: r ∧ ' ' ∉ t := by
  intro s
  induction s with
  | nil => intro h; simp at h
  | cons x s' ih =>
    intro h
    by_cases hx : x = ' '
    · exact ⟨[], s', by simp [hx], by simp⟩
    · have h' : ' ' ∈ s' := by
        rcases List.mem_cons.mp h with hh | hh
        · exact absurd hh.symm hx
        · exact hh
      obtain ⟨t, r, rfl, ht⟩ := ih h'
      refine ⟨x :: t, r, by simp, ?_⟩
      intro hmem
      rcases List.mem_cons.mp hmem with hm | hm
      · exact hx hm.symm
      · exact ht hm

theorem drop_length_append (t r : Str) (c : Char) :
    (t ++ c :: r).drop (t.length + 1) = r := by
  have heq : t ++ c :: r = (t ++ [c]) ++ r := by simp
  rw [heq]
  have hlen : (t ++ [c]).length = t.length + 1 := by simp
  rw [← hlen, List.drop_left]

theorem afterFirstSpace_of_split (t r : Str) (h : ' ' ∉ t) :
    afterFirstSpace (t ++ ' ' :: r) = r := by
  unfold afterFirstSpace
  rw [findChar_append_not_mem ' ' t r h]
  exact drop_length_append t r ' '

theorem afterFirstSpace_of_not_mem {s : Str} (h : ' ' ∉ s) : afterFirstSpace s = s := by
  unfold afterFirstSpace
  rw [(findChar_eq_none_iff ' ' s).mpr h]

/-- Dichotomy for step (a) of the boundary correction: either the window has
no space and is kept whole, or the result is exactly the part after the
first space. -/
theorem afterFirstSpace_spec (s : Str) :
    (' ' ∉ s ∧ afterFirstSpace s = s) ∨
    (∃ t : Str, ' ' ∉ t ∧ s = t ++ ' ' :: afterFirstSpace s) := by
  by_cases h : ' ' ∈ s
  · obtain ⟨t, r, rfl, ht⟩ := exists_first_space s h
    right
    exact ⟨t, ht, by rw [afterFirstSpace_of_split t r ht]⟩
  · exact Or.inl ⟨h, afterFirstSpace_of_not_mem h⟩

theorem rfindDotSpace_some_spec :
    ∀ (s : Str) (i : Nat), rfindDotSpace s = some i →
      ∃ t r : Str, s = t ++ '.' :: ' ' :: r ∧ t.length = i := by
  intro s
  induction s with
  | nil => intro i h; simp [rfindDotSpace] at h
  | cons x s' ih =>
    intro i h
    unfold rfindDotSpace at h
    cases hr : rfindDotSpace s' with
    | some j =>
      rw [hr] at h
      have hij : j + 1 = i := by simpa using h
      obtain ⟨t, r, rfl, hlen⟩ := ih j hr
      exact ⟨x :: t, r, by simp, by simp only [List.length_cons, hlen, hij]⟩
    | none =>
      rw [hr] at h
      by_cases hcond : x = '.' ∧ s'.head? = some ' '
      · rw [if_pos hcond] at h
        have hi : (0 : Nat) = i := by simpa using h
        obtain ⟨hx, hs⟩ := hcond
        cases s' with
        | nil => simp at hs
        | cons y r =>
          have hy : y = ' ' := by simpa using hs
          exact ⟨[], r, by simp [hx, hy], by simp [← hi]⟩
      · rw [if_neg hcond] at h
        exact absurd h (by simp)

theorem drop_length_append2 (t r : Str) (c d : Char) :
    (t ++ c :: d :: r).drop (t.length + 2) = r := by
  have heq : t ++ c :: d :: r = (t ++ [c, d]) ++ r := by simp
  rw [heq]
  have hlen : (t ++ [c, d]).length = t.length + 2 := by simp
  rw [← hlen, List.drop_left]

/-- Dichotomy for step (b): either there is no `". "` in the seed and it is
kept, or the result is exactly the part after the last `". "`. -/
theorem afterLastSentenceEnd_spec (s : Str) :
    afterLastSentenceEnd s = s ∨
    (∃ t : Str, s = t ++ '.' :: ' ' :: afterLastSentenceEnd s) := by
  cases h : rfindDotSpace s with
  | none =>
    left
    unfold afterLastSentenceEnd
    rw [h]
  | some i =>
    obtain ⟨t, r, hs, hlen⟩ := rfindDotSpace_some_spec s i h
    right
    have hval : afterLastSentenceEnd s = r := by
      unfold afterLastSentenceEnd
      rw [h, hs, ← hlen]
      exact drop_length_append2 t r '.' ' '
    rw [hval]
    exact ⟨t, hs⟩

theorem afterFirstSpace_suffix (s : Str) : afterFirstSpace s <:+ s := by
  rcases afterFirstSpace_spec s with ⟨-, h⟩ | ⟨t, -, h⟩
  · rw [h]
  · refine ⟨t ++ [' '], ?_⟩
    rw [List.append_assoc, List.singleton_append]
    exact h.symm

theorem afterLastSentenceEnd_suffix (s : Str) : afterLastSentenceEnd s <:+ s := by
  rcases afterLastSentenceEnd_spec s with h | ⟨t, h⟩
  · rw [h]
  · refine ⟨t ++ ['.', ' '], ?_⟩
    rw [List.append_assoc]
    exact h.symm

/-- The corrected seed is a suffix of the closed buffer. -/
theorem correctOverlap_suffix (buf : Str) : correctOverlap buf <:+ buf := by
  unfold correctOverlap
  exact ((afterLastSentenceEnd_suffix _).trans (afterFirstSpace_suffix _)).trans
    (List.drop_suffix _ _)

/-- On a clean buffer longer than the overlap, the corrected seed is itself
clean (in particular non-empty and not starting with a space). -/
theorem correctOverlap_good (buf : Str) (hg : good buf) (hlen : CHUNK_OVERLAP < buf.length) :
    good (correctOverlap buf) := by
  have hco : correctOverlap buf =
      afterLastSentenceEnd (afterFirstSpace (buf.drop (buf.length - CHUNK_OVERLAP))) := rfl
  generalize hw : buf.drop (buf.length - CHUNK_OVERLAP) = w at hco
  have hwsuf : w <:+ buf := hw ▸ List.drop_suffix _ _
  have hwlen : w.length = CHUNK_OVERLAP := by rw [← hw, List.length_drop]; omega
  have hwne : w ≠ [] := by
    intro h; rw [h] at hwlen; simp [CHUNK_OVERLAP] at hwlen
  have hwlast : w.getLast? ≠ some ' ' := by
    obtain ⟨pre, hpre⟩ := hwsuf
    rw [← hpre] at hg
    rw [← getLastOpt_append_right pre w hwne]
    exact hg.2.2.2.1
  have hwnds : noDoubleSpace w = true := by
    obtain ⟨pre, hpre⟩ := hwsuf
    exact noDoubleSpace_append_right pre w (by rw [hpre]; exact hg.2.2.2.2)
  rcases afterFirstSpace_spec w with ⟨hnomem, hafs⟩ | ⟨t1, -, hsplit⟩
  · have hals : afterLastSentenceEnd (afterFirstSpace w) = afterFirstSpace w := by
      rcases afterLastSentenceEnd_spec (afterFirstSpace w) with hh | ⟨t2, h2⟩
      · exact hh
      · exfalso
        have : ' ' ∈ afterFirstSpace w := by rw [h2]; simp
        rw [hafs] at this
        exact hnomem this
    have hwh : w.head? ≠ some ' ' := by
      intro h
      apply hnomem
      cases w with
      | nil => simp at h
      | cons a w' =>
        have ha : a = ' ' := by simpa using h
        simp [ha]
    rw [hco, hals, hafs]
    exact good_of_suffix buf w hg hwsuf hwne hwh
  · generalize hU : afterFirstSpace w = u at hsplit hco
    have husuf : u <:+ w :=
      ⟨t1 ++ [' '], by rw [List.append_assoc, List.singleton_append]; exact hsplit.symm⟩
    have hune : u ≠ [] := by
      intro h
      apply hwlast
      rw [hsplit, h, getLastOpt_append_cons]
      rfl
    have hulast : u.getLast? ≠ some ' ' := by
      intro h
      apply hwlast
      rw [hsplit, getLastOpt_append_cons]
      cases u with
      | nil => exact absurd rfl hune
      | cons a u' =>
        rw [List.getLast?_cons_cons]
        exact h
    have huh : u.head? ≠ some ' ' := by
      cases u with
      | nil => intro h; simp at h
      | cons c u' =>
        intro h
        have hc : c = ' ' := by simpa using h
        subst hc
        exact noDoubleSpace_after_space t1 ' ' u' (hsplit ▸ hwnds) rfl
    have hugood : good u := good_of_suffix buf u hg (husuf.trans hwsuf) hune huh
    rcases afterLastSentenceEnd_spec u with hals | ⟨t2, hsplit2⟩
    · rw [hco, hals]
      exact hugood
    · generalize hV : afterLastSentenceEnd u = v at hsplit2 hco
      have hvsuf : v <:+ u := ⟨t2 ++ ['.', ' '], by rw [List.append_assoc]; exact hsplit2.symm⟩
      have hvne : v ≠ [] := by
        intro h
        apply hulast
        rw [hsplit2, h, getLastOpt_append_cons, List.getLast?_cons_cons]
        rfl
      have hvh : v.head? ≠ some ' ' := by
        cases v with
        | nil => intro h; simp at h
        | cons d v' =>
          intro h
          have hd : d = ' ' := by simpa using h
          subst hd
          have hndsu : noDoubleSpace u = true := hugood.2.2.2.2
          have hofrm : u = (t2 ++ ['.']) ++ ' ' :: ' ' :: v' := by
            rw [hsplit2]; simp
          exact noDoubleSpace_after_space (t2 ++ ['.']) ' ' v' (hofrm ▸ hndsu) rfl
      rw [hco]
      exact good_of_suffix buf v hg ((hvsuf.trans husuf).trans hwsuf) hvne hvh

/-- When the trailing window of the closed buffer contains a space, the
corrected seed starts right after a space of the buffer: the seed never
starts mid-word in that case. -/
theorem correctOverlap_boundary (buf : Str)
    (h : ' ' ∈ buf.drop (buf.length - CHUNK_OVERLAP)) :
    ∃ t : Str, buf = t ++ ' ' :: correctOverlap buf := by
  have hco : correctOverlap buf =
      afterLastSentenceEnd (afterFirstSpace (buf.drop (buf.length - CHUNK_OVERLAP))) := rfl
  generalize hw : buf.drop (buf.length - CHUNK_OVERLAP) = w at hco h
  have hwsuf : w <:+ buf := hw ▸ List.drop_suffix _ _
  obtain ⟨pre, hpre⟩ := hwsuf
  rcases afterFirstSpace_spec w with ⟨hnm, -⟩ | ⟨t1, -, hsplit⟩
  · exact absurd h hnm
  · generalize hU : afterFirstSpace w = u at hsplit hco
    rcases afterLastSentenceEnd_spec u with hals | ⟨t2, hsplit2⟩
    · refine ⟨pre ++ t1, ?_⟩
      rw [hco, hals, ← hpre, hsplit]
      simp
    · generalize hV : afterLastSentenceEnd u = v at hsplit2 hco
      refine ⟨pre ++ t1 ++ ' ' :: t2 ++ ['.'], ?_⟩
      rw [hco, ← hpre, hsplit, hsplit2]
      simp

/-! ## Reconstruction helpers -/

/-- A buffer as the code builds it: the overlap seed (possibly empty)
followed, after one space, by the body accumulated so far. -/
def glue (ovl body : Str) : Str := if ovl = [] then body else ovl ++ ' ' :: body

/-- Remove a chunk's seeded overlap region (the seed and the following
space). -/
def deovl (p : Str × Str) : Str :=
  if p.2 = [] then p.1 else p.1.drop (p.2.length + 1)

/-- Join a list of texts with single spaces. -/
def joinSp : List Str → Str
  | [] => []
  | [s] => s
  | s :: rest => s ++ ' ' :: joinSp rest

/-- Prepend a text unless it is empty. -/
def consIf (b : Str) (l : List Str) : List Str := if b = [] then l else b :: l

theorem glue_nil_left (b : Str) : glue [] b = b := by simp [glue]

theorem glue_eq_of_ne (ovl b : Str) (h : ovl ≠ []) : glue ovl b = ovl ++ ' ' :: b :=
  if_neg h

theorem glue_eq_nil (ovl body : Str) (h : glue ovl body = []) : body = [] ∧ ovl = [] := by
  unfold glue at h
  split at h
  · exact ⟨h, by assumption⟩
  · exact absurd h (by simp)

theorem glue_append (ovl body s : Str) :
    glue ovl body ++ ' ' :: s = glue ovl (body ++ ' ' :: s) := by
  unfold glue
  split <;> simp

theorem good_glue (ovl body : Str) (hovl : ovl = [] ∨ good ovl) (hb : good body) :
    good (glue ovl body) := by
  rcases hovl with rfl | hovl
  · rw [glue_nil_left]; exact hb
  · rw [glue_eq_of_ne ovl body hovl.1]
    exact good_append ovl body hovl hb

theorem deovl_glue (ovl body : Str) : deovl (glue ovl body, ovl) = body := by
  unfold deovl glue
  by_cases h : ovl = []
  · simp [h]
  · simp only [h, if_false]
    exact drop_length_append ovl body ' '

theorem joinSp_cons_of_ne (a : Str) (l : List Str) (h : l ≠ []) :
    joinSp (a :: l) = a ++ ' ' :: joinSp l := by
  cases l with
  | nil => exact absurd rfl h
  | cons x xs => rfl

theorem joinSp_glue_shift (a b : Str) (l : List Str) :
    joinSp ((a ++ ' ' :: b) :: l) = a ++ ' ' :: joinSp (b :: l) := by
  cases l with
  | nil => rfl
  | cons x xs =>
    rw [joinSp_cons_of_ne (a ++ ' ' :: b) (x :: xs) (by simp),
        joinSp_cons_of_ne b (x :: xs) (by simp)]
    simp

theorem consIf_nil (l : List Str) : consIf [] l = l := by simp [consIf]

theorem consIf_of_ne (b : Str) (l : List Str) (h : b ≠ []) : consIf b l = b :: l :=
  if_neg h

/-- The instrumented loop projects onto the plain loop. -/
theorem chunkParaAnnot_fst :
    ∀ (sents : List Str) (buf ovl : Str),
      (chunkParaAnnot sents buf ovl).map Prod.fst = chunkPara sents buf := by
  intro sents
  induction sents with
  | nil =>
    intro buf ovl
    unfold chunkParaAnnot chunkPara
    split <;> simp
  | cons s rest ih =>
    intro buf ovl
    unfold chunkParaAnnot chunkPara
    split
    · exact ih buf ovl
    · split
      · split
        · rename_i hov
          simp [hov, ih]
        · rename_i hov
          simp [hov, ih]
      · exact ih _ ovl

theorem joinSp_cons_congr (a : Str) {l m : List Str} (hl : l ≠ []) (hm : m ≠ [])
    (h : joinSp l = joinSp m) : joinSp (a :: l) = joinSp (a :: m) := by
  rw [joinSp_cons_of_ne a l hl, joinSp_cons_of_ne a m hm, h]

/-- The relation between one emitted chunk and the next: the next chunk's
seed is at most `CHUNK_OVERLAP` long, is a suffix of this chunk, equals the
corrected overlap of this chunk exactly when this chunk is longer than the
overlap (and is empty otherwise), and — when the trailing window of this
chunk contains a space — starts right after a space of this chunk. -/
def pairRel (a b : Str × Str) : Prop :=
  b.2.length ≤ CHUNK_OVERLAP ∧ b.2 <:+ a.1 ∧
  (CHUNK_OVERLAP < a.1.length → b.2 = correctOverlap a.1) ∧
  (a.1.length ≤ CHUNK_OVERLAP → b.2 = []) ∧
  (CHUNK_OVERLAP < a.1.length → ' ' ∈ a.1.drop (a.1.length - CHUNK_OVERLAP) →
    ∃ t : Str, a.1 = t ++ ' ' :: b.2)

/-- Per-chunk invariant: the chunk text is clean, and when it was seeded its
text is the seed, a space, and the rest. -/
def elemInv (p : Str × Str) : Prop :=
  good p.1 ∧ (p.2 = [] ∨ (good p.2 ∧ p.1 = p.2 ++ ' ' :: p.1.drop (p.2.length + 1)))

/-- The master invariant of the sentence loop on clean input: de-overlapped
chunks joined by single spaces rebuild the pending body followed by the
remaining sentences; the output is non-empty while a body is pending; the
head of the output carries the current seed; every chunk satisfies
`elemInv`; and consecutive chunks satisfy `pairRel`. -/
theorem chunkParaAnnot_master :
    ∀ (sents : List Str) (ovl body : Str),
      (∀ s ∈ sents, good s) →
      (ovl = [] ∨ good ovl) →
      (body = [] → ovl = []) →
      (body = [] ∨ good body) →
      joinSp ((chunkParaAnnot sents (glue ovl body) ovl).map deovl) =
          joinSp (consIf body sents) ∧
      (body ≠ [] → chunkParaAnnot sents (glue ovl body) ovl ≠ []) ∧
      (∀ q ∈ (chunkParaAnnot sents (glue ovl body) ovl).head?, q.2 = ovl) ∧
      (∀ q ∈ chunkParaAnnot sents (glue ovl body) ovl, elemInv q) ∧
      List.Chain' pairRel (chunkParaAnnot sents (glue ovl body) ovl) := by
  intro sents
  induction sents with
  | nil =>
    intro ovl body hsents hovl hbo hbody
    by_cases hb : body = []
    · subst hb
      have ho : ovl = [] := hbo rfl
      subst ho
      rw [glue_nil_left]
      simp [chunkParaAnnot, pyStrip, consIf, joinSp]
    · have hgb : good body := hbody.resolve_left hb
      have hgbuf : good (glue ovl body) := good_glue ovl body hovl hgb
      have hstrip : pyStrip (glue ovl body) = glue ovl body := pyStrip_eq_self _ hgbuf
      have hout : chunkParaAnnot [] (glue ovl body) ovl = [(glue ovl body, ovl)] := by
        unfold chunkParaAnnot
        rw [hstrip, if_neg hgbuf.1]
      rw [hout]
      refine ⟨?_, fun _ => by simp, ?_, ?_, ?_⟩
      · rw [consIf_of_ne body [] hb]
        simp only [List.map_cons, List.map_nil, deovl_glue]
      · intro q hq
        simp only [List.head?_cons, Option.mem_def, Option.some.injEq] at hq
        rw [← hq]
      · intro q hq
        rcases List.mem_singleton.mp hq with rfl
        refine ⟨hgbuf, ?_⟩
        rcases hovl with rfl | hovlg
        · exact Or.inl rfl
        · right
          refine ⟨hovlg, ?_⟩
          show glue ovl body = ovl ++ ' ' :: (glue ovl body).drop (ovl.length + 1)
          rw [glue_eq_of_ne ovl body hovlg.1, drop_length_append ovl body ' ']
      · exact List.chain'_singleton _
  | cons s rest ih =>
    intro ovl body hsents hovl hbo hbody
    have hgs : good s := hsents s (by simp)
    have hsne : s ≠ [] := hgs.1
    have hstrips : pyStrip s = s := pyStrip_eq_self s hgs
    have hrest : ∀ q ∈ rest, good q := fun q hq => hsents q (by simp [hq])
    by_cases hclose : glue ovl body ≠ [] ∧
        CHUNK_SIZE < (glue ovl body).length + s.length + 1
    · have hbne : body ≠ [] := by
        intro hb
        exact hclose.1 (by rw [hb, hbo hb, glue_nil_left])
      have hgb : good body := hbody.resolve_left hbne
      have hgbuf : good (glue ovl body) := good_glue ovl body hovl hgb
      have hstripb : pyStrip (glue ovl body) = glue ovl body := pyStrip_eq_self _ hgbuf
      have helemHead : elemInv (glue ovl body, ovl) := by
        refine ⟨hgbuf, ?_⟩
        rcases hovl with rfl | hovlg
        · exact Or.inl rfl
        · right
          refine ⟨hovlg, ?_⟩
          show glue ovl body = ovl ++ ' ' :: (glue ovl body).drop (ovl.length + 1)
          rw [glue_eq_of_ne ovl body hovlg.1, drop_length_append ovl body ' ']
      by_cases hov : CHUNK_OVERLAP < (glue ovl body).length
      · have hcog : good (correctOverlap (glue ovl body)) :=
          correctOverlap_good _ hgbuf hov
        have hout : chunkParaAnnot (s :: rest) (glue ovl body) ovl =
            (glue ovl body, ovl) ::
              chunkParaAnnot rest (glue (correctOverlap (glue ovl body)) s)
                (correctOverlap (glue ovl body)) := by
          simp only [chunkParaAnnot]
          rw [hstrips, if_neg hsne, if_pos hclose, if_pos hov, hstripb,
            ← glue_eq_of_ne _ s hcog.1]
        obtain ⟨ih1, ih2, ih3, ih4, ih5⟩ :=
          ih (correctOverlap (glue ovl body)) s hrest (Or.inr hcog)
            (fun hcontra => absurd hcontra hsne) (Or.inr hgs)
        have hne' : chunkParaAnnot rest (glue (correctOverlap (glue ovl body)) s)
            (correctOverlap (glue ovl body)) ≠ [] := ih2 hsne
        rw [hout]
        refine ⟨?_, fun _ => by simp, ?_, ?_, ?_⟩
        · rw [List.map_cons, deovl_glue, consIf_of_ne body (s :: rest) hbne]
          apply joinSp_cons_congr body (by simpa using hne') (by simp)
          rw [ih1, consIf_of_ne s rest hsne]
        · intro q hq
          simp only [List.head?_cons, Option.mem_def, Option.some.injEq] at hq
          rw [← hq]
        · intro q hq
          rcases List.mem_cons.mp hq with rfl | hq
          · exact helemHead
          · exact ih4 q hq
        · rw [List.chain'_cons']
          refine ⟨?_, ih5⟩
          intro b hb
          have hb2 : b.2 = correctOverlap (glue ovl body) := ih3 b hb
          refine ⟨?_, ?_, ?_, ?_, ?_⟩
          · rw [hb2]; exact correctOverlap_length_le _
          · rw [hb2]
            exact correctOverlap_suffix _
          · intro _
            rw [hb2]
          · intro hle
            exact absurd hov (not_lt.mpr hle)
          · intro _ hsp
            obtain ⟨t, ht⟩ := correctOverlap_boundary (glue ovl body) hsp
            exact ⟨t, by rw [hb2]; exact ht⟩
      · have hout : chunkParaAnnot (s :: rest) (glue ovl body) ovl =
            (glue ovl body, ovl) :: chunkParaAnnot rest (glue [] s) [] := by
          simp only [chunkParaAnnot]
          rw [hstrips, if_neg hsne, if_pos hclose, if_neg hov, hstripb, glue_nil_left]
        obtain ⟨ih1, ih2, ih3, ih4, ih5⟩ :=
          ih [] s hrest (Or.inl rfl) (fun hcontra => absurd hcontra hsne) (Or.inr hgs)
        have hne' : chunkParaAnnot rest (glue [] s) [] ≠ [] := ih2 hsne
        rw [hout]
        refine ⟨?_, fun _ => by simp, ?_, ?_, ?_⟩
        · rw [List.map_cons, deovl_glue, consIf_of_ne body (s :: rest) hbne]
          apply joinSp_cons_congr body (by simpa using hne') (by simp)
          rw [ih1, consIf_of_ne s rest hsne]
        · intro q hq
          simp only [List.head?_cons, Option.mem_def, Option.some.injEq] at hq
          rw [← hq]
        · intro q hq
          rcases List.mem_cons.mp hq with rfl | hq
          · exact helemHead
          · exact ih4 q hq
        · rw [List.chain'_cons']
          refine ⟨?_, ih5⟩
          intro b hb
          have hb2 : b.2 = [] := ih3 b hb
          refine ⟨?_, ?_, ?_, ?_, ?_⟩
          · rw [hb2]; simp
          · rw [hb2]; exact List.nil_suffix
          · intro hlt
            exact absurd hlt hov
          · intro _
            rw [hb2]
          · intro hlt
            exact absurd hlt hov
    · by_cases hbe : glue ovl body = []
      · obtain ⟨hb0, ho0⟩ := glue_eq_nil ovl body hbe
        subst hb0
        subst ho0
        have hout : chunkParaAnnot (s :: rest) (glue [] []) [] =
            chunkParaAnnot rest (glue [] s) [] := by
          simp only [chunkParaAnnot]
          rw [hstrips, if_neg hsne, if_neg hclose, if_pos hbe, glue_nil_left]
        obtain ⟨ih1, ih2, ih3, ih4, ih5⟩ :=
          ih [] s hrest (Or.inl rfl) (fun hcontra => absurd hcontra hsne) (Or.inr hgs)
        rw [hout]
        refine ⟨?_, fun hcontra => absurd rfl hcontra, ih3, ih4, ih5⟩
        rw [ih1, consIf_of_ne s rest hsne, consIf_nil]
      · have hbne : body ≠ [] := fun hb => hbe (by rw [hb, hbo hb, glue_nil_left])
        have hgb : good body := hbody.resolve_left hbne
        have hout : chunkParaAnnot (s :: rest) (glue ovl body) ovl =
            chunkParaAnnot rest (glue ovl (body ++ ' ' :: s)) ovl := by
          simp only [chunkParaAnnot]
          rw [hstrips, if_neg hsne, if_neg hclose, if_neg hbe, glue_append]
        obtain ⟨ih1, ih2, ih3, ih4, ih5⟩ :=
          ih ovl (body ++ ' ' :: s) hrest hovl
            (fun hcontra => absurd hcontra (by simp))
            (Or.inr (good_append body s hgb hgs))
        rw [hout]
        refine ⟨?_, fun _ => ih2 (by simp), ih3, ih4, ih5⟩
        rw [ih1, consIf_of_ne (body ++ ' ' :: s) rest (by simp),
          joinSp_glue_shift body s rest, consIf_of_ne body (s :: rest) hbne,
          joinSp_cons_of_ne body (s :: rest) (by simp)]

theorem splitPipe_ne_nil : ∀ s : Str, splitPipe s ≠ [] := by
  intro s
  induction s with
  | nil => simp [splitPipe]
  | cons x rest ih =>
    unfold splitPipe
    split
    · simp
    · split
      · simp
      · simp

theorem joinSp_cons_head (x : Char) (h : Str) (t : List Str) :
    joinSp ((x :: h) :: t) = x :: joinSp (h :: t) := by
  cases t with
  | nil => rfl
  | cons a t' =>
    rw [joinSp_cons_of_ne (x :: h) (a :: t') (by simp),
      joinSp_cons_of_ne h (a :: t') (by simp)]
    rfl

/-- Splitting on `". "` (via `replace` / `split`) and re-joining the
sentences with single spaces is the identity on pipe-free text: the split
moves each `". "` boundary's period into the preceding sentence. -/
theorem joinSp_splitPipe_replace :
    ∀ (p : Str), '|' ∉ p → joinSp (splitPipe (replaceDotSpace p)) = p := by
  intro p
  induction p using replaceDotSpace.induct with
  | case1 => intro _; rfl
  | case2 x =>
    intro hp
    have hx : ¬ x = '|' := fun h => hp (by simp [h])
    simp [replaceDotSpace, splitPipe, hx, joinSp]
  | case3 x y rest hxy ih =>
    intro hp
    obtain ⟨rfl, rfl⟩ := hxy
    have hrest : '|' ∉ rest := fun h => hp (List.mem_cons_of_mem _ (List.mem_cons_of_mem _ h))
    have hL := splitPipe_ne_nil (replaceDotSpace rest)
    obtain ⟨q, qs, hqs⟩ := List.exists_cons_of_ne_nil hL
    rw [show replaceDotSpace ('.' :: ' ' :: rest) = '.' :: '|' :: replaceDotSpace rest from by
      simp [replaceDotSpace]]
    rw [show splitPipe ('.' :: '|' :: replaceDotSpace rest) =
        ['.'] :: splitPipe (replaceDotSpace rest) from by simp [splitPipe]]
    rw [hqs, joinSp_cons_of_ne ['.'] (q :: qs) (by simp), ← hqs, ih hrest]
    rfl
  | case4 x y rest hxy ih =>
    intro hp
    have hx : ¬ x = '|' := fun h => hp (by simp [h])
    have hyr : '|' ∉ y :: rest := fun h => hp (List.mem_cons_of_mem x h)
    have hL := splitPipe_ne_nil (replaceDotSpace (y :: rest))
    obtain ⟨q, qs, hqs⟩ := List.exists_cons_of_ne_nil hL
    rw [show replaceDotSpace (x :: y :: rest) = x :: replaceDotSpace (y :: rest) from by
      rw [replaceDotSpace.eq_3 x y rest, if_neg hxy]]
    rw [show splitPipe (x :: replaceDotSpace (y :: rest)) = (x :: q) :: qs from by
      unfold splitPipe
      rw [if_neg hx, hqs]]
    rw [joinSp_cons_head, ← hqs, ih hyr]

/-- `joinSp_splitPipe_replace` restated for `sentencesOf`. -/
theorem joinSp_sentencesOf (p : Str) (hp : '|' ∉ p) : joinSp (sentencesOf p) = p := by
  unfold sentencesOf
  exact joinSp_splitPipe_replace p hp

/-- Extraction of the master invariant for a whole clean paragraph. -/
theorem paraChunksAnnot_clean (para : Str) (hp : '|' ∉ para)
    (hs : ∀ s ∈ sentencesOf para, good s) :
    (chunkParaAnnot (sentencesOf para) [] []).map Prod.fst = paraChunks para ∧
    joinSp ((chunkParaAnnot (sentencesOf para) [] []).map deovl) = para ∧
    (∀ q ∈ chunkParaAnnot (sentencesOf para) [] [], elemInv q) ∧
    List.Chain' pairRel (chunkParaAnnot (sentencesOf para) [] []) := by
  have hm := chunkParaAnnot_master (sentencesOf para) [] [] hs (Or.inl rfl)
    (fun _ => rfl) (Or.inl rfl)
  rw [glue_nil_left] at hm
  obtain ⟨h1, -, -, h4, h5⟩ := hm
  rw [consIf_nil, joinSp_sentencesOf para hp] at h1
  exact ⟨chunkParaAnnot_fst (sentencesOf para) [] [], h1, h4, h5⟩

theorem chain'_mono_with_mem {α : Type} {R S : α → α → Prop} {Q : α → Prop} :
    ∀ {l : List α}, List.Chain' R l → (∀ x ∈ l, Q x) →
      (∀ a b, R a b → Q a → Q b → S a b) → List.Chain' S l := by
  intro l
  induction l with
  | nil => intro _ _ _; exact List.chain'_nil
  | cons x l' ih =>
    intro hR hQ himp
    rw [List.chain'_cons'] at hR ⊢
    refine ⟨?_, ih hR.2 (fun y hy => hQ y (by simp [hy])) himp⟩
    intro y hy
    have hyl : y ∈ l' := by
      cases l' with
      | nil => simp at hy
      | cons a l'' =>
        simp only [List.head?_cons, Option.mem_def, Option.some.injEq] at hy
        simp [hy]
    exact himp x y (hR.1 y hy) (hQ x (by simp)) (hQ y (by simp [hyl]))

/-- A clean multi-sentence paragraph of 348 characters (it splits into two
chunks, the second seeded). -/
def wPara : Str :=
  ("alpha beta gamma delta epsilon zeta. alpha beta gamma delta epsilon zeta. " ++
   "alpha beta gamma delta epsilon zeta. alpha beta gamma delta epsilon zeta. " ++
   "alpha beta gamma delta epsilon zeta. alpha beta gamma delta epsilon zeta. " ++
   "alpha beta gamma delta epsilon zeta. alpha beta gamma delta epsilon zeta. " ++
   "alpha beta gamma delta epsilon zeta. omega ends here").data

/-! ## Claim C2: overlap seeding -/

/-- A 306-character paragraph whose first chunk closes with a 10-character
buffer. -/
def cexPara2 : Str := "aaaa aaaa. ".data ++ List.replicate 295 'b'

/-- C2 counterexample: on `cexPara2` the chunker closes the 10-character
chunk `"aaaa aaaa."` and starts the next buffer with the next sentence
alone: the next chunk is exactly the 295 `b`s.  Had the seeding described by
the claim happened, the corrected seed of the closed chunk — the non-empty
string `"aaaa."` — followed by a space would be a prefix of the next chunk,
and it is not. -/
theorem claim_C2_counterexample :
    paraChunks cexPara2 = ["aaaa aaaa.".data, List.replicate 295 'b'] ∧
    correctOverlap ("aaaa aaaa.".data) = "aaaa.".data ∧
    ¬ ("aaaa.".data ++ [' ']) <+: List.replicate 295 'b' := by
  refine ⟨by decide, by decide, by decide⟩

/-- C2 amended: on a clean paragraph, whenever a chunk is closed
mid-paragraph, the next chunk's seed equals the corrected trailing-overlap
seed of the closed chunk IF the closed chunk is longer than
`CHUNK_OVERLAP`; the seed followed by a space is then a prefix of the next
chunk.  When the closed chunk has at most `CHUNK_OVERLAP` characters, no
seeding happens (the seed is empty and the next buffer starts with the next
sentence alone). -/
theorem claim_C2_amended_overlap_seeding (para : Str) (hp : '|' ∉ para)
    (hs : ∀ s ∈ sentencesOf para, good s) :
    (chunkParaAnnot (sentencesOf para) [] []).map Prod.fst = paraChunks para ∧
    List.Chain'
      (fun a b =>
        (CHUNK_OVERLAP < a.1.length →
          b.2 = correctOverlap a.1 ∧ (b.2 ++ [' ']) <+: b.1) ∧
        (a.1.length ≤ CHUNK_OVERLAP → b.2 = []))
      (chunkParaAnnot (sentencesOf para) [] []) := by
  obtain ⟨h1, -, h4, h5⟩ := paraChunksAnnot_clean para hp hs
  refine ⟨h1, chain'_mono_with_mem h5 h4 ?_⟩
  intro a b hR hQa hQb
  refine ⟨?_, hR.2.2.2.1⟩
  intro hlt
  have hb2 : b.2 = correctOverlap a.1 := hR.2.2.1 hlt
  have hbne : b.2 ≠ [] := by
    rw [hb2]
    exact (correctOverlap_good a.1 hQa.1 hlt).1
  rcases hQb.2 with hnil | ⟨-, hdec⟩
  · exact absurd hnil hbne
  · refine ⟨hb2, ?_⟩
    refine ⟨b.1.drop (b.2.length + 1), ?_⟩
    rw [List.append_assoc, List.singleton_append]
    exact hdec.symm

/-- C2 witness: the amended seeding relation on a concrete clean
paragraph. -/
theorem claim_C2_witness :
    (chunkParaAnnot (sentencesOf wPara) [] []).map Prod.fst = paraChunks wPara ∧
    List.Chain'
      (fun a b =>
        (CHUNK_OVERLAP < a.1.length →
          b.2 = correctOverlap a.1 ∧ (b.2 ++ [' ']) <+: b.1) ∧
        (a.1.length ≤ CHUNK_OVERLAP → b.2 = []))
      (chunkParaAnnot (sentencesOf wPara) [] []) :=
  claim_C2_amended_overlap_seeding wPara (by decide) (by decide)

/-! ## Claim C3: coverage -/

/-- A page whose text is the single paragraph `cexPara2`. -/
def cexPage3 : Page := ⟨"page_3".data, cexMeta, cexPara2⟩

/-- C3 counterexample: plainly concatenating the de-overlapped chunk texts
of `cexPage3` does NOT reconstruct the page text — the single space that
separated the two chunks' contents is lost. -/
theorem claim_C3_counterexample :
    (createNeedleChunksPage cexPage3).map Chunk.text =
      (chunkParaAnnot (sentencesOf cexPara2) [] []).map Prod.fst ∧
    ((chunkParaAnnot (sentencesOf cexPara2) [] []).map deovl).flatten ≠ cexPage3.text := by
  refine ⟨by decide, by decide⟩

/-- C3 amended: the page's chunk texts are the concatenation, in paragraph
order, of each paragraph's chunk texts; and for every clean paragraph,
joining its chunks' texts WITH SINGLE SPACES after removing each chunk's
seeded overlap region reconstructs the paragraph exactly. -/
theorem claim_C3_amended_coverage (pg : Page) (para : Str) (hp : '|' ∉ para)
    (hs : ∀ s ∈ sentencesOf para, good s) :
    (createNeedleChunksPage pg).map Chunk.text =
      ((splitParas pg.text).map paraTexts).flatten ∧
    (chunkParaAnnot (sentencesOf para) [] []).map Prod.fst = paraChunks para ∧
    joinSp ((chunkParaAnnot (sentencesOf para) [] []).map deovl) = para := by
  obtain ⟨h1, h2, -, -⟩ := paraChunksAnnot_clean para hp hs
  exact ⟨createNeedleChunksPage_texts pg, h1, h2⟩

/-- C3 witness: coverage on a concrete page and clean paragraph. -/
theorem claim_C3_witness :
    (createNeedleChunksPage cexPage3).map Chunk.text =
      ((splitParas cexPage3.text).map paraTexts).flatten ∧
    (chunkParaAnnot (sentencesOf wPara) [] []).map Prod.fst = paraChunks wPara ∧
    joinSp ((chunkParaAnnot (sentencesOf wPara) [] []).map deovl) = wPara :=
  claim_C3_amended_coverage cexPage3 wPara (by decide) (by decide)

/-! ## Claim C4: the shared overlap between consecutive chunks -/

/-- C4 counterexample: `cexPage1` yields three chunks; the first two are
consecutive, derive from the same paragraph and neither is the paragraph's
final chunk, yet the first 40 characters of the second chunk are not a
suffix of the first chunk — the shared (boundary-corrected) overlap is the
38-character corrected seed, not exactly 40 characters. -/
theorem claim_C4_counterexample :
    (createNeedleChunksPage cexPage1).length = 3 ∧
    ((createNeedleChunksPage cexPage1).map Chunk.text)[0]? = some (cexA ++ ['.']) ∧
    ((createNeedleChunksPage cexPage1).map Chunk.text)[1]? =
      some (List.replicate 37 'a' ++ '.' :: ' ' :: (List.replicate 280 'b' ++ ['.'])) ∧
    ¬ ((List.replicate 37 'a' ++ '.' :: ' ' :: (List.replicate 280 'b' ++ ['.'])).take
        CHUNK_OVERLAP <:+ cexA ++ ['.']) := by
  refine ⟨by decide, by decide, by decide, by decide⟩

/-- C4 amended: on a clean paragraph, each chunk after the first begins with
its recorded seed, of length AT MOST the configured overlap (exactly the
boundary-corrected seed, which is usually shorter than `CHUNK_OVERLAP` and
empty when the closed buffer was no longer than the overlap), and that seed
is a suffix of the preceding chunk. -/
theorem claim_C4_amended_overlap_length (para : Str) (hp : '|' ∉ para)
    (hs : ∀ s ∈ sentencesOf para, good s) :
    (chunkParaAnnot (sentencesOf para) [] []).map Prod.fst = paraChunks para ∧
    List.Chain'
      (fun a b => b.2.length ≤ CHUNK_OVERLAP ∧ b.2 <+: b.1 ∧ b.2 <:+ a.1)
      (chunkParaAnnot (sentencesOf para) [] []) := by
  obtain ⟨h1, -, h4, h5⟩ := paraChunksAnnot_clean para hp hs
  refine ⟨h1, chain'_mono_with_mem h5 h4 ?_⟩
  intro a b hR _ hQb
  refine ⟨hR.1, ?_, hR.2.1⟩
  rcases hQb.2 with hnil | ⟨-, hdec⟩
  · rw [hnil]; exact List.nil_prefix
  · exact ⟨' ' :: b.1.drop (b.2.length + 1), hdec.symm⟩

/-- C4 witness: the amended overlap relation on a concrete clean
paragraph. -/
theorem claim_C4_witness :
    (chunkParaAnnot (sentencesOf wPara) [] []).map Prod.fst = paraChunks wPara ∧
    List.Chain'
      (fun a b => b.2.length ≤ CHUNK_OVERLAP ∧ b.2 <+: b.1 ∧ b.2 <:+ a.1)
      (chunkParaAnnot (sentencesOf wPara) [] []) :=
  claim_C4_amended_overlap_length wPara (by decide) (by decide)

/-! ## Claim C5: word-boundary cleanliness of the seed -/

/-- A 514-character paragraph whose first sentence ends in a word longer
than the overlap window. -/
def cexPara5 : Str :=
  List.replicate 250 'b' ++ '.' :: ' ' ::
    (List.replicate 60 'c' ++ '.' :: ' ' :: List.replicate 200 'd')

/-- C5 counterexample: on `cexPara5` the second chunk's seed is the full
40-character window `"bbb…b."` (39 `b`s and a period); it is a proper,
non-initial suffix of the first chunk, which contains no space at all — so
the character preceding the seed inside the first chunk is a `b`, and the
seed starts in the middle of a word. -/
theorem claim_C5_counterexample :
    ((chunkParaAnnot (sentencesOf cexPara5) [] []).map Prod.snd)[1]? =
      some (List.replicate 39 'b' ++ ['.']) ∧
    (paraChunks cexPara5)[0]? = some (List.replicate 250 'b' ++ ['.']) ∧
    List.replicate 250 'b' ++ ['.'] =
      List.replicate 211 'b' ++ (List.replicate 39 'b' ++ ['.']) ∧
    ' ' ∉ List.replicate 250 'b' ++ ['.'] := by
  refine ⟨by decide, by decide, by decide, by decide⟩

/-- C5 amended: on a clean paragraph, whenever the trailing
`CHUNK_OVERLAP`-character window of a closed chunk contains a space, the
next chunk's seed starts right after a space of the closed chunk (never
mid-word); when the window is an unbroken run with no space, the whole
window is kept as the seed and may start mid-word. -/
theorem claim_C5_amended_word_boundary (para : Str) (hp : '|' ∉ para)
    (hs : ∀ s ∈ sentencesOf para, good s) :
    (chunkParaAnnot (sentencesOf para) [] []).map Prod.fst = paraChunks para ∧
    List.Chain'
      (fun a b => CHUNK_OVERLAP < a.1.length →
        ' ' ∈ a.1.drop (a.1.length - CHUNK_OVERLAP) →
        ∃ t : Str, a.1 = t ++ ' ' :: b.2)
      (chunkParaAnnot (sentencesOf para) [] []) := by
  obtain ⟨h1, -, -, h5⟩ := paraChunksAnnot_clean para hp hs
  exact ⟨h1, h5.imp fun a b hR => hR.2.2.2.2⟩

/-- C5 witness: the amended word-boundary relation on a concrete clean
paragraph. -/
theorem claim_C5_witness :
    (chunkParaAnnot (sentencesOf wPara) [] []).map Prod.fst = paraChunks wPara ∧
    List.Chain'
      (fun a b => CHUNK_OVERLAP < a.1.length →
        ' ' ∈ a.1.drop (a.1.length - CHUNK_OVERLAP) →
        ∃ t : Str, a.1 = t ++ ' ' :: b.2)
      (chunkParaAnnot (sentencesOf wPara) [] []) :=
  claim_C5_amended_word_boundary wPara (by decide) (by decide)
